import Mathlib

/-!
Verification development for the PatentAI hybrid-search / claim-analysis
backend.  The Python services under `backend/app` are shallowly embedded:

* `backend/app/services/claim_parser.py`  → the `Parser` namespace
* `backend/app/services/embedding.py` (cosine_similarity) → the `Embedding` namespace
* `backend/app/services/claim_service.py` (compare_claims) → the `ClaimService` namespace
* `backend/app/services/search.py` (fuzzy_search / hybrid_search) → the `Search` namespace
* `backend/app/api/priorart.py` (search_prior_art grouping) → the `PriorArt` namespace

Real-valued float arithmetic is modelled over `ℝ` (for the cosine pipeline,
whose definition needs a square root) and over `ℚ` (for the score-fusion
pipelines, whose inputs come from external scorers and which only add,
multiply and compare).  Python's stable `sorted` is modelled by
`List.insertionSort`, which is stable for the reflexive relations used here.
The line-anchored regular expressions of the parser are modelled by
character-level scanners specialised to those patterns.
-/

namespace PatentAI

namespace Parser

/-- Python regex `\s` over ASCII text: space, tab, newline, carriage return,
vertical tab, form feed. -/
def isWs (c : Char) : Bool :=
  c = ' ' || c = '\t' || c = '\n' || c = '\r' || c = Char.ofNat 11 || c = Char.ofNat 12

/-- Value of a digit run, as Python `int` on a decimal string. -/
def digitsVal (cs : List Char) : Nat :=
  cs.foldl (fun a c => a * 10 + (c.toNat - 48)) 0

/-- Strip an exact prefix, returning the remainder (a literal in a regex). -/
def stripPfx : List Char → List Char → Option (List Char)
  | [], cs => some cs
  | _ :: _, [] => none
  | p :: ps, c :: cs => if c = p then stripPfx ps cs else none

/-- Regex `\s+`: requires at least one whitespace char, consumes the run. -/
def reqWs (cs : List Char) : Option (List Char) :=
  if (cs.takeWhile isWs).isEmpty then none else some (cs.dropWhile isWs)

/-- Regex `(\d+)`: requires at least one digit, captures the run's value. -/
def reqDigits (cs : List Char) : Option (Nat × List Char) :=
  let ds := cs.takeWhile Char.isDigit
  if ds.isEmpty then none else some (digitsVal ds, cs.dropWhile Char.isDigit)

/-- Trailing whitespace stripped: the second half of Python `str.strip()`. -/
def dropTail (cs : List Char) : List Char :=
  (cs.reverse.dropWhile isWs).reverse

/-- Both ends stripped of whitespace, as Python `str.strip()`. -/
def stripChars (cs : List Char) : List Char :=
  dropTail (cs.dropWhile isWs)

def stripS (s : String) : String := String.mk (stripChars s.data)

/-- A whitespace-only (or empty) string. -/
def blankS (s : String) : Bool := s.data.all isWs

/-- Collapse every whitespace run to a single space (regex `\s+` → `' '`). -/
def collapseWs : List Char → List Char
  | [] => []
  | [c] => if isWs c then [' '] else [c]
  | c :: c2 :: cs =>
    if isWs c && isWs c2 then collapseWs (c2 :: cs)
    else (if isWs c then ' ' else c) :: collapseWs (c2 :: cs)

/-- `ClaimParserService._clean_claim_text`: `re.sub(r'\s+', ' ', text).strip()`. -/
def cleanClaimText (s : String) : String :=
  String.mk (stripChars (collapseWs s.data))

/-- Core of the `CLAIM_PATTERNS[0]` marker after leading whitespace:
`(\d+)[.\)]` — a digit run then `.` or `)`.  Returns the claim number and
the rest of the line after the punctuation. -/
def mcore (cs : List Char) : Option (Nat × String) :=
  let ds := cs.takeWhile Char.isDigit
  let rest := cs.dropWhile Char.isDigit
  if ds.isEmpty then none
  else
    match rest with
    | '.' :: r => some (digitsVal ds, String.mk r)
    | ')' :: r => some (digitsVal ds, String.mk r)
    | _ => none

/-- Marker of `CLAIM_PATTERNS[0]` at the start of a line:
`\s*(\d+)[.\)]` — leading whitespace, then the marker core. -/
def marker1 (l : String) : Option (Nat × String) :=
  mcore (l.data.dropWhile isWs)

/-- Marker of `CLAIM_PATTERNS[1]` at the start of a line:
`\s*[Cc]laim\s+(\d+)[.:]`. -/
def marker2 (l : String) : Option (Nat × String) :=
  let cs := l.data.dropWhile isWs
  match cs with
  | c :: 'l' :: 'a' :: 'i' :: 'm' :: r =>
    if c = 'C' || c = 'c' then
      match reqWs r with
      | none => none
      | some r1 =>
        let ds := r1.takeWhile Char.isDigit
        let r2 := r1.dropWhile Char.isDigit
        if ds.isEmpty then none
        else
          match r2 with
          | '.' :: r3 => some (digitsVal ds, String.mk r3)
          | ':' :: r3 => some (digitsVal ds, String.mk r3)
          | _ => none
    else none
  | _ => none

/-- A marker line together with the non-marker lines that follow it, up to
the next marker line.  `rest` is the text after the marker on its own line,
`line` the full original line (needed when an empty-bodied marker makes the
regex capture run into the next marker's line). -/
structure Seg where
  num : Nat
  rest : String
  line : String
  body : List String
deriving Repr, DecidableEq

/-- Right fold grouping lines into marker-headed segments; the second
component carries the non-marker lines seen so far below the last marker. -/
def segPair (mk : String → Option (Nat × String)) (lines : List String) :
    List Seg × List String :=
  lines.foldr
    (fun l acc =>
      match mk l with
      | some nr => (⟨nr.1, nr.2, l, acc.2⟩ :: acc.1, ([] : List String))
      | none => (acc.1, l :: acc.2))
    (([] : List Seg), ([] : List String))

/-- Group lines into marker-headed segments; lines before the first marker
cannot start a regex match and are dropped. -/
def segments (mk : String → Option (Nat × String)) (lines : List String) : List Seg :=
  (segPair mk lines).1

def blankAll (ls : List String) : Bool := ls.all blankS

def joinLines (ls : List String) : String := String.intercalate "\n" ls

/-- `re.findall` for the claim patterns (DOTALL+MULTILINE, lazy body, a
lookahead that stops each capture at the newline preceding the next marker).
One candidate per segment whose marker is followed by at least one character;
a marker followed only by whitespace up to the next marker captures the next
marker's line and body instead (the lazy `.+?` must consume at least one
character before the lookahead can fire), swallowing that marker. -/
def cands : List Seg → List (Nat × String)
  | [] => []
  | ⟨n, rest, _, body⟩ :: tl =>
    if !(blankS rest && blankAll body) then
      (n, joinLines (rest :: body)) :: cands tl
    else
      match tl with
      | [] => if body.isEmpty then [] else [(n, joinLines (rest :: body))]
      | ⟨_, _, line2, body2⟩ :: tl2 => (n, joinLines (line2 :: body2)) :: cands tl2

def scanPat (mk : String → Option (Nat × String)) (lines : List String) :
    List (Nat × String) :=
  cands (segments mk lines)

/-! #### `_preprocess` -/

/-- `re.sub(r'\r\n', '\n', text)`. -/
def replCRLF : List Char → List Char
  | [] => []
  | '\r' :: '\n' :: cs => '\n' :: replCRLF cs
  | c :: cs => c :: replCRLF cs

def isSpTab (c : Char) : Bool := c = ' ' || c = '\t'

/-- `re.sub(r'[ \t]+', ' ', text)`. -/
def collapseSpTab : List Char → List Char
  | [] => []
  | [c] => if isSpTab c then [' '] else [c]
  | c :: c2 :: cs =>
    if isSpTab c && isSpTab c2 then collapseSpTab (c2 :: cs)
    else (if isSpTab c then ' ' else c) :: collapseSpTab (c2 :: cs)

/-- Tail of the page-number pattern: `\s*\n` — a whitespace run that must
contain a newline; the match ends after the run's last newline. -/
def pageTail (cs : List Char) : Option (List Char) :=
  let run := cs.takeWhile isWs
  let rest := cs.dropWhile isWs
  let after := run.reverse.takeWhile (fun c => c ≠ '\n')
  if after.length = run.length then none
  else some (after.reverse ++ rest)

/-- After a newline, the rest of `re.sub(r'\n\s*-?\d+-?\s*\n', '\n', text)`'s
pattern: `\s*-?\d+-?\s*\n`; returns the remainder after the matched span. -/
def pageMatch (cs : List Char) : Option (List Char) :=
  let a := cs.dropWhile isWs
  let a1 := match a with | '-' :: r => r | _ => a
  let ds := a1.takeWhile Char.isDigit
  let a2 := a1.dropWhile Char.isDigit
  if ds.isEmpty then none else
  let a3 := match a2 with | '-' :: r => r | _ => a2
  pageTail a3

/-- Non-overlapping left-to-right substitution of the page-number pattern,
replacing each match by a single newline; scanning resumes after each match.
Fuelled by the text length (each step consumes at least one character). -/
def pageStripGo : Nat → List Char → List Char
  | 0, cs => cs
  | _ + 1, [] => []
  | f + 1, c :: cs =>
    if c = '\n' then
      match pageMatch cs with
      | some rest => '\n' :: pageStripGo f rest
      | none => '\n' :: pageStripGo f cs
    else c :: pageStripGo f cs

/-- `ClaimParserService._preprocess`. -/
def preprocess (s : String) : String :=
  let t1 := replCRLF s.data
  let t2 := collapseSpTab t1
  let t3 := pageStripGo t2.length t2
  String.mk (stripChars t3)

/-- Python `str.split('\n')` at the character level: split at every newline,
keeping empty parts (so the result always has at least one element). -/
def splitNL : List Char → List (List Char)
  | [] => [[]]
  | c :: cs =>
    if c = '\n' then [] :: splitNL cs
    else
      match splitNL cs with
      | [] => [[c]]
      | l :: ls => (c :: l) :: ls

def splitLines (s : String) : List String := (splitNL s.data).map String.mk

/-! #### `_analyze_dependency` — the three `DEPENDENCY_PATTERNS`, searched
case-insensitively, first match (leftmost position, alternatives in order)
wins.  The text is lowercased once, mirroring `re.IGNORECASE` on the
all-lowercase patterns. -/

/-- One alternative of pattern 1 at a fixed position:
`<phrase> claim[s]?\s+(\d+)`. -/
def depPhrase (ph : String) (cs : List Char) : Option Nat :=
  (stripPfx ph.data cs).bind fun r =>
  (stripPfx " claim".data r).bind fun r1 =>
  let r2 := match r1 with | 's' :: t => t | _ => r1
  (reqWs r2).bind fun r3 =>
  (reqDigits r3).map Prod.fst

/-- `(?:according to|as (?:claimed|defined|set forth|recited) in|of) claim[s]?\s+(\d+)`
at a fixed position. -/
def depA (cs : List Char) : Option Nat :=
  (depPhrase "according to" cs).orElse fun _ =>
  (depPhrase "as claimed in" cs).orElse fun _ =>
  (depPhrase "as defined in" cs).orElse fun _ =>
  (depPhrase "as set forth in" cs).orElse fun _ =>
  (depPhrase "as recited in" cs).orElse fun _ =>
  depPhrase "of" cs

/-- `claim[s]?\s+(\d+)[,\s]+(?:wherein|where|further|additionally)` at a
fixed position. -/
def depB (cs : List Char) : Option Nat :=
  (stripPfx "claim".data cs).bind fun r =>
  let r1 := match r with | 's' :: t => t | _ => r
  (reqWs r1).bind fun r2 =>
  (reqDigits r2).bind fun nr =>
  let sep := nr.2.takeWhile (fun c => c = ',' || isWs c)
  let r4 := nr.2.dropWhile (fun c => c = ',' || isWs c)
  if sep.isEmpty then none
  else if (stripPfx "wherein".data r4).isSome || (stripPfx "where".data r4).isSome
      || (stripPfx "further".data r4).isSome || (stripPfx "additionally".data r4).isSome
  then some nr.1 else none

def isWordChar (c : Char) : Bool := c.isAlphanum || c = '_'

/-- One article alternative of pattern 3 at a fixed position:
`<art>\s+\w+\s+(?:of|according to)\s+claim\s+(\d+)`. -/
def depCArt (art : String) (cs : List Char) : Option Nat :=
  (stripPfx art.data cs).bind fun r =>
  (reqWs r).bind fun r1 =>
  (if (r1.takeWhile isWordChar).isEmpty then none
   else some (r1.dropWhile isWordChar)).bind fun r2 =>
  (reqWs r2).bind fun r3 =>
  ((stripPfx "of".data r3).orElse fun _ => stripPfx "according to".data r3).bind fun r4 =>
  (reqWs r4).bind fun r5 =>
  (stripPfx "claim".data r5).bind fun r6 =>
  (reqWs r6).bind fun r7 =>
  (reqDigits r7).map Prod.fst

/-- `(?:The|A|An)\s+\w+\s+(?:of|according to)\s+claim\s+(\d+)` at a fixed
position. -/
def depC (cs : List Char) : Option Nat :=
  (depCArt "the" cs).orElse fun _ =>
  (depCArt "a" cs).orElse fun _ =>
  depCArt "an" cs

/-- `re.search`: leftmost position at which the pattern matches. -/
def searchPos (f : List Char → Option Nat) : List Char → Option Nat
  | [] => none
  | c :: cs => (f (c :: cs)).orElse fun _ => searchPos f cs

/-- `ClaimParserService._analyze_dependency`: the three patterns tried in
order; a match gives the parent claim number (dependent claim), no match
means independent. -/
def analyzeDependency (txt : String) : Option Nat :=
  let cs := txt.data.map Char.toLower
  (searchPos depA cs).orElse fun _ =>
  (searchPos depB cs).orElse fun _ =>
  searchPos depC cs

/-! #### `_detect_claim_type` — `re.match` of anchored preamble patterns. -/

/-- `^(?:<art1>|<art2>|...)\s+(?:<kw1>|<kw2>|...)` at the start of the
(lowercased) text. -/
def preambleMatch (arts : List String) (kws : List String) (cs : List Char) : Bool :=
  arts.any fun a =>
    match stripPfx a.data cs with
    | none => false
    | some r =>
      match reqWs r with
      | none => false
      | some r1 => kws.any fun k => (stripPfx k.data r1).isSome

/-- `ClaimParserService._detect_claim_type`: `CLAIM_TYPE_PATTERNS` in
insertion order, first match wins. -/
def detectClaimType (txt : String) : Option String :=
  let cs := txt.data.map Char.toLower
  if preambleMatch ["a", "the"] ["method"] cs then some "method"
  else if preambleMatch ["a", "an", "the"]
      ["apparatus", "device", "machine", "equipment"] cs then some "apparatus"
  else if preambleMatch ["a", "the"] ["system"] cs then some "system"
  else if preambleMatch ["a", "the"]
      ["composition", "compound", "formulation", "mixture"] cs then some "composition"
  else if preambleMatch ["a", "an", "the"]
      ["article", "product", "manufacture"] cs then some "article"
  else if preambleMatch ["a", "the"] ["process"] cs then some "process"
  else none

/-! #### `parse_claims` -/

structure ParsedClaim where
  claim_number : Nat
  claim_text : String
  is_independent : Bool
  parent_claim_number : Option Nat
  claim_type : Option String
deriving Repr, DecidableEq

/-- Build a `ParsedClaim` from a number and already-cleaned text. -/
def buildClaim (n : Nat) (ct : String) : ParsedClaim :=
  let dep := analyzeDependency ct
  ⟨n, ct, dep.isNone, dep, detectClaimType ct⟩

/-- The per-candidate step of `parse_claims`: clean the captured text and
keep the claim only if the cleaned text is non-empty and longer than 10
characters. -/
def mkClaim (p : Nat × String) : Option ParsedClaim :=
  let ct := cleanClaimText p.2
  if !ct.isEmpty && ct.length > 10 then some (buildClaim p.1 ct) else none

/-- State of `_fallback_parse`'s line scan: current claim number, accumulated
text pieces, claims emitted so far. -/
structure FbState where
  num : Option Nat
  pieces : List String
  claims : List ParsedClaim

/-- Flush the current claim, if any, with its pieces joined by single spaces. -/
def fbFlush (st : FbState) : List ParsedClaim :=
  match st.num with
  | some n =>
    if st.pieces.isEmpty then st.claims
    else st.claims ++ [buildClaim n (String.intercalate " " st.pieces)]
  | none => st.claims

/-- One line of `_fallback_parse`: strip the line, skip it when empty; a
numbered line flushes the previous claim and starts a new one (its remainder,
when non-empty, is the first piece); other lines extend the current claim. -/
def fbStep (st : FbState) (l : String) : FbState :=
  let line := stripS l
  if line.data.isEmpty then st
  else
    match marker1 line with
    | some nr =>
      let restCs := nr.2.data.dropWhile isWs
      ⟨some nr.1, if restCs.isEmpty then [] else [String.mk restCs], fbFlush st⟩
    | none =>
      match st.num with
      | some _ => ⟨st.num, st.pieces ++ [line], st.claims⟩
      | none => st

/-- `ClaimParserService._fallback_parse`. -/
def fallbackParse (lines : List String) : List ParsedClaim :=
  fbFlush (lines.foldl fbStep ⟨none, [], []⟩)

/-- `ClaimParserService.parse_claims`: try the two regex strategies in
order, keep the first with any match; when nothing survives filtering, run
the line-scan fallback; sort ascending by claim number (stable). -/
def parseClaims (txt : String) : List ParsedClaim :=
  if txt.isEmpty then []
  else
    let lines := splitLines (preprocess txt)
    let m1 := scanPat marker1 lines
    let fromPats :=
      if !m1.isEmpty then m1.filterMap mkClaim
      else
        let m2 := scanPat marker2 lines
        if !m2.isEmpty then m2.filterMap mkClaim else []
    let claims := if fromPats.isEmpty then fallbackParse lines else fromPats
    List.insertionSort (fun a b => a.claim_number ≤ b.claim_number) claims

end Parser

namespace Embedding

/-- Dot product of two float vectors (`np.dot` on equal-length inputs),
modelled over `ℝ`. -/
def dotL (v w : List ℝ) : ℝ := (List.zipWith (· * ·) v w).sum

/-- Euclidean norm (`np.linalg.norm`). -/
noncomputable def normL (v : List ℝ) : ℝ := Real.sqrt (dotL v v)

/-- `EmbeddingService.cosine_similarity`: returns `0.0` when either vector
has zero norm, otherwise the dot product over the product of the norms.
No clamping is applied to the quotient. -/
noncomputable def cosine_similarity (v w : List ℝ) : ℝ :=
  if normL v = 0 ∨ normL w = 0 then 0 else dotL v w / (normL v * normL w)

end Embedding

namespace ClaimService

/-- A stored claim row as `compare_claims` reads it: number, independence
flag and (nullable) embedding vector. -/
structure ClaimRec where
  claim_number : Nat
  is_independent : Bool
  embedding : Option (List ℝ)

/-- Python truthiness of a nullable vector: `None` and `[]` are falsy. -/
def truthy : Option (List ℝ) → Bool
  | none => false
  | some v => !v.isEmpty

/-- `ClaimService._calculate_risk_level` (thresholds 0.8 / 0.6). -/
noncomputable def riskLevel (s : ℝ) : String :=
  if s ≥ 0.8 then "high" else if s ≥ 0.6 then "medium" else "low"

structure ClaimMatch where
  source : ClaimRec
  target : ClaimRec
  similarity : ℝ
  risk_level : String

/-- The all-pairs loop of `compare_claims`: for every source/target pair
with truthy embeddings compute the cosine similarity and keep the pair when
it reaches the match threshold 0.5; source-major iteration order. -/
noncomputable def allMatches (src tgt : List ClaimRec) : List ClaimMatch :=
  src.flatMap fun s =>
    tgt.filterMap fun t =>
      if truthy s.embedding && truthy t.embedding then
        let sim := Embedding.cosine_similarity (s.embedding.getD []) (t.embedding.getD [])
        if sim ≥ 0.5 then some ⟨s, t, sim, riskLevel sim⟩ else none
      else none

/-- Python `max` over a non-empty list (`0` pads the unreachable empty
case). -/
def listMax : List ℝ → ℝ
  | [] => 0
  | a :: t => t.foldl max a

/-- Python's stable `list.sort(key=..., reverse=True)` on match similarity. -/
noncomputable def sortMatches (l : List ClaimMatch) : List ClaimMatch :=
  List.insertionSort (fun a b => b.similarity ≤ a.similarity) l

structure ClaimAnalysisResult where
  source_claims_count : Nat
  target_claims_count : Nat
  top_matches : List ClaimMatch
  highest_similarity : ℝ
  average_similarity : ℝ
  independent_claims_at_risk : Nat
  overall_risk : String
  summary : String
  recommendation : String

/-- `ClaimService.compare_claims` after the two claim lists have been
fetched (lazily reparsing when absent): the zero-claims short circuit,
otherwise all-pairs matching, stable descending sort, top-10 selection and
the aggregate statistics.  The LLM enrichment is an external provider and is
modelled switched off (`include_llm_analysis=False` leaves summary and
recommendation empty). -/
noncomputable def compareClaims (src tgt : List ClaimRec) : ClaimAnalysisResult :=
  if src.isEmpty || tgt.isEmpty then
    ⟨src.length, tgt.length, [], 0, 0, 0, "unknown",
      "Could not parse claims from one or both patents.",
      "Manual review required - claims could not be automatically parsed."⟩
  else
    let sorted := sortMatches (allMatches src tgt)
    let top := sorted.take 10
    let sims := if sorted.isEmpty then [(0 : ℝ)] else sorted.map (·.similarity)
    let highest := listMax sims
    let avg := sims.sum / sims.length
    let atRisk := ((sorted.filter fun m =>
        m.source.is_independent && decide (m.similarity ≥ 0.6)).map
        (fun m => m.source.claim_number)).dedup.length
    let risk := if highest ≥ 0.8 then "high"
      else if highest ≥ 0.6 then "medium" else "low"
    ⟨src.length, tgt.length, top, highest, avg, atRisk, risk, "", ""⟩

end ClaimService

namespace Search

/-- `SearchResult` of `search.py` (the patent payload reduced to its id;
only the id is read by the merge). -/
structure SearchResult where
  patent_id : Nat
  vector_score : ℚ
  fuzzy_score : ℚ
  combined_score : ℚ
  match_type : String
deriving Repr, DecidableEq

/-- Python dict keyed by patent id: insertion-ordered association list. -/
def hasKey (m : List (Nat × SearchResult)) (k : Nat) : Bool :=
  m.any fun p => p.1 == k

def dictInsert (m : List (Nat × SearchResult)) (k : Nat) (v : SearchResult) :
    List (Nat × SearchResult) :=
  if hasKey m k then m.map fun p => if p.1 == k then (k, v) else p
  else m ++ [(k, v)]

def dictUpdate (m : List (Nat × SearchResult)) (k : Nat)
    (f : SearchResult → SearchResult) : List (Nat × SearchResult) :=
  m.map fun p => if p.1 == k then (p.1, f p.2) else p

/-- First merge loop of `hybrid_search`: one entry per vector row
(id, similarity), match type `"vector"`. -/
def vectorPass (vrows : List (Nat × ℚ)) : List (Nat × SearchResult) :=
  vrows.foldl (fun m r => dictInsert m r.1 ⟨r.1, r.2, 0, 0, "vector"⟩) []

/-- Second merge loop: a fuzzy row for an existing id sets its fuzzy score
and marks it `"hybrid"`; a new id is appended as a fuzzy-only entry. -/
def fuzzyPass (frows : List (Nat × ℚ)) (m0 : List (Nat × SearchResult)) :
    List (Nat × SearchResult) :=
  frows.foldl
    (fun m r =>
      if hasKey m r.1 then
        dictUpdate m r.1 fun s => { s with fuzzy_score := r.2, match_type := "hybrid" }
      else m ++ [(r.1, ⟨r.1, 0, r.2, 0, "fuzzy"⟩)])
    m0

/-- `combined_score = vector_score*vector_weight + fuzzy_score*fuzzy_weight`. -/
def withCombined (vw fw : ℚ) (s : SearchResult) : SearchResult :=
  { s with combined_score := s.vector_score * vw + s.fuzzy_score * fw }

/-- The merged candidate list (`combined.values()` with combined scores),
in dict insertion order. -/
def mergedVals (vrows frows : List (Nat × ℚ)) (vw fw : ℚ) : List SearchResult :=
  ((fuzzyPass frows (vectorPass vrows)).map Prod.snd).map (withCombined vw fw)

/-- Python's stable `sorted(..., key=combined_score, reverse=True)`. -/
def sortByCombined (l : List SearchResult) : List SearchResult :=
  List.insertionSort (fun a b => b.combined_score ≤ a.combined_score) l

/-- `PatentSearchService.hybrid_search` after both candidate retrievals:
merge, score, sort descending, truncate to `limit`, then filter by the
global similarity floor. -/
def hybridSearch (vrows frows : List (Nat × ℚ)) (limit : Nat)
    (vw fw minSim : ℚ) : List SearchResult :=
  ((sortByCombined (mergedVals vrows frows vw fw)).take limit).filter
    fun r => decide (minSim ≤ r.combined_score)

/-- The `/patents/search` route passes `fuzzy_weight = 1 - vector_weight`
(`api/patents.py`). -/
def apiFuzzyWeight (vw : ℚ) : ℚ := 1 - vw

/-- A stored patent as `fuzzy_search` reads it. -/
structure Patent where
  id : Nat
  title : String
  abstract : String
deriving Repr, DecidableEq

/-- The corpus string built for each patent: `f"{p.title} {p.abstract}"`. -/
def searchText (p : Patent) : String := p.title ++ " " ++ p.abstract

/-- `patent_map[search_text]` after the build loop: the dict maps each
corpus string to the **last** patent with that search text. -/
def lastWithText (patents : List Patent) (t : String) : Option Patent :=
  (patents.filter fun p => searchText p == t).getLast?

/-- `rapidfuzz.process.extract`: scored corpus entries, best first, at most
`limit` of them (the query is folded into the scorer). -/
def extract (score : String → ℚ) (corpus : List String) (limit : Nat) :
    List (String × ℚ) :=
  (List.insertionSort (fun a b : String × ℚ => b.2 ≤ a.2)
    (corpus.map fun t => (t, score t))).take limit

/-- `PatentSearchService.fuzzy_search`: build the corpus and text-keyed
patent map, extract the fuzzy matches, and for each match at or above the
fuzzy threshold look its text up in the map and emit `(patent, score/100)`. -/
def fuzzySearch (patents : List Patent) (score : String → ℚ) (limit : Nat)
    (threshold : ℚ) : List (Patent × ℚ) :=
  let corpus := patents.map searchText
  (extract score corpus limit).filterMap fun m =>
    if threshold ≤ m.2 then (lastWithText patents m.1).map fun p => (p, m.2 / 100)
    else none

end Search

namespace PriorArt

/-- A row of the claim-level vector search feeding `search_prior_art`. -/
structure PARow where
  claim_id : Nat
  patent_id : Nat
  similarity : ℚ
deriving Repr, DecidableEq

/-- Per-claim risk classification of `search_prior_art` (0.75 / 0.55). -/
def paRisk (s : ℚ) : String :=
  if 0.75 ≤ s then "high" else if 0.55 ≤ s then "medium" else "low"

/-- One value of `patent_map` while grouping: claims in append order plus
the running maximum similarity (started at `0.0`). -/
structure PAEntry where
  patent_id : Nat
  blocking_claims : List (PARow × String)
  highest_similarity : ℚ
deriving Repr, DecidableEq

/-- The in-place mutation a row performs on its patent's map entry: append
the claim (with its risk level) and raise the running maximum; entries of
other patents are untouched. -/
def paUpd (r : PARow) (e : PAEntry) : PAEntry :=
  if e.patent_id == r.patent_id then
    { e with
      blocking_claims := e.blocking_claims ++ [(r, paRisk r.similarity)],
      highest_similarity :=
        if e.highest_similarity < r.similarity then r.similarity
        else e.highest_similarity }
  else e

/-- Processing one retrieved row: create the patent's entry if absent, then
append the claim and raise the running maximum. -/
def paStep (m : List PAEntry) (r : PARow) : List PAEntry :=
  (if m.any (fun e => e.patent_id == r.patent_id) then m
    else m ++ [⟨r.patent_id, [], 0⟩]).map (paUpd r)

/-- The grouping loop of `search_prior_art` over all retrieved rows. -/
def paMap (rows : List PARow) : List PAEntry := rows.foldl paStep []

structure PAGroup where
  patent_id : Nat
  blocking_claims : List (PARow × String)
  highest_similarity : ℚ
  overall_risk : String
deriving Repr, DecidableEq

/-- `search_prior_art` after the claim retrieval: group rows by patent,
keep only groups whose maximum similarity reaches 0.4, sort each kept
group's claims descending and truncate to 5, classify the group's risk,
then sort groups descending by maximum similarity and truncate to `limit`. -/
def searchPriorArt (rows : List PARow) (limit : Nat) : List PAGroup :=
  let patents := (paMap rows).filterMap fun e =>
    if (0.4 : ℚ) ≤ e.highest_similarity then
      some (⟨e.patent_id,
        (List.insertionSort (fun a b : PARow × String => b.1.similarity ≤ a.1.similarity)
          e.blocking_claims).take 5,
        e.highest_similarity,
        if 0.75 ≤ e.highest_similarity then "high"
        else if 0.55 ≤ e.highest_similarity then "medium" else "low"⟩ : PAGroup)
    else none
  (List.insertionSort (fun a b : PAGroup => b.highest_similarity ≤ a.highest_similarity)
    patents).take limit

/-- The running-maximum fold `search_prior_art` performs, started at `0.0`:
`highest = similarity if similarity > highest else highest` over a list of
similarities. -/
def listMaxQ (l : List ℚ) : ℚ := l.foldl (fun a s => if a < s then s else a) 0

end PriorArt

/-! ### Specification-side predicates -/

namespace Parser

/-- A well-formed claims blob for the primary `"N. ..."` strategy: already
normalised text (the preprocessing pass leaves it unchanged), at least one
line, and every line a numbered marker whose body is non-blank and, once
cleaned, longer than the 10-character noise floor. -/
def WellFormed (txt : String) : Prop :=
  ¬txt.isEmpty ∧ preprocess txt = txt ∧
    ∀ l ∈ splitLines txt, ∃ nr : Nat × String, marker1 l = some nr ∧
      blankS nr.2 = false ∧ 10 < (cleanClaimText nr.2).length

instance : DecidablePred WellFormed := fun txt => by
  unfold WellFormed
  infer_instance

/-- The numbers of the numbered markers the primary pattern recognises in
the (preprocessed) input. -/
def markerNumbers (txt : String) : List Nat :=
  (splitLines (preprocess txt)).filterMap fun l => (marker1 l).map Prod.fst

end Parser

/-! ## Generic facts about the stable sort model

Python's `sorted`/`list.sort` is modelled by `List.insertionSort`, which is
stable.  The pipelines only ever sort by a numeric key and then truncate
and/or filter by a threshold on that same key, so the lemmas below about how
`insertionSort` interacts with `filter` and `take` carry all of them. -/

section SortFacts

set_option linter.unusedSectionVars false

variable {α : Type*} {r : α → α → Prop} [DecidableRel r]

theorem filter_orderedInsert_sorted {p : α → Bool}
    (htr : ∀ a b c, r a b → r b c → r a c)
    (hp : ∀ a b, r a b → p b = true → p a = true) (a : α) :
    ∀ l : List α, l.Sorted r →
      (l.orderedInsert r a).filter p =
        if p a then (l.filter p).orderedInsert r a else (l.filter p)
  | [], _ => by
    by_cases h : p a <;> simp [List.orderedInsert, List.filter, h]
  | b :: t, hl => by
    have hbt : ∀ x ∈ t, r b x := fun x hx => List.rel_of_sorted_cons hl x hx
    by_cases hab : r a b
    · simp only [List.orderedInsert, if_pos hab]
      by_cases hpa : p a
      · have hmem : ∀ x ∈ (b :: t).filter p, r a x := by
          intro x hx
          rcases List.mem_filter.mp hx with ⟨hx1, _⟩
          rcases List.mem_cons.mp hx1 with h1 | h1
          · exact h1 ▸ hab
          · exact htr a b x hab (hbt x h1)
        rw [List.filter_cons_of_pos hpa, if_pos hpa]
        cases hf : (b :: t).filter p with
        | nil => rfl
        | cons x xs =>
          have hax : r a x := hmem x (hf ▸ List.mem_cons_self x xs)
          simp only [List.orderedInsert, if_pos hax]
      · rw [List.filter_cons_of_neg hpa, if_neg hpa]
    · have IH := filter_orderedInsert_sorted htr hp a t hl.of_cons
      simp only [List.orderedInsert, if_neg hab]
      by_cases hpb : p b
      · rw [List.filter_cons_of_pos hpb, IH]
        by_cases hpa : p a
        · rw [if_pos hpa, if_pos hpa, List.filter_cons_of_pos hpb]
          simp only [List.orderedInsert, if_neg hab]
        · rw [if_neg hpa, if_neg hpa, List.filter_cons_of_pos hpb]
      · rw [List.filter_cons_of_neg hpb, IH, List.filter_cons_of_neg hpb]

theorem filter_insertionSort_comm {p : α → Bool}
    (htr : ∀ a b c, r a b → r b c → r a c)
    (htot : ∀ a b, r a b ∨ r b a)
    (hp : ∀ a b, r a b → p b = true → p a = true) :
    ∀ l : List α, (List.insertionSort r l).filter p = List.insertionSort r (l.filter p)
  | [] => rfl
  | a :: l => by
    haveI : IsTrans α r := ⟨htr⟩
    haveI : IsTotal α r := ⟨fun x y => htot x y⟩
    have hs : (List.insertionSort r l).Sorted r := List.sorted_insertionSort r l
    show ((List.insertionSort r l).orderedInsert r a).filter p = _
    rw [filter_orderedInsert_sorted htr hp a _ hs,
      filter_insertionSort_comm htr htot hp l]
    by_cases hpa : p a
    · rw [if_pos hpa, List.filter_cons_of_pos hpa]
      rfl
    · rw [if_neg hpa, List.filter_cons_of_neg hpa]

theorem filter_take_of_sorted {p : α → Bool}
    (hp : ∀ a b, r a b → p b = true → p a = true) :
    ∀ (l : List α), l.Sorted r → ∀ n : Nat,
      (l.take n).filter p = (l.filter p).take n
  | [], _, n => by simp
  | a :: t, hl, 0 => by simp
  | a :: t, hl, n + 1 => by
    by_cases hpa : p a
    · rw [List.take_succ_cons, List.filter_cons_of_pos hpa, List.filter_cons_of_pos hpa,
        List.take_succ_cons, filter_take_of_sorted hp t hl.of_cons n]
    · have hnone : ∀ x ∈ t, p x = false := by
        intro x hx
        by_contra hx'
        exact hpa (hp a x (List.rel_of_sorted_cons hl x hx) (by simpa using hx'))
      have h1 : t.filter p = [] := List.filter_eq_nil_iff.mpr (by
        intro x hx
        simp [hnone x hx])
      have h2 : (t.take n).filter p = [] := List.filter_eq_nil_iff.mpr (by
        intro x hx
        simp [hnone x (List.mem_of_mem_take hx)])
      rw [List.take_succ_cons, List.filter_cons_of_neg hpa, List.filter_cons_of_neg hpa,
        h1, h2, List.take_nil]

theorem sorted_insertionSort_of
    (htr : ∀ a b c, r a b → r b c → r a c)
    (htot : ∀ a b, r a b ∨ r b a) (l : List α) :
    (List.insertionSort r l).Sorted r := by
  haveI : IsTrans α r := ⟨htr⟩
  haveI : IsTotal α r := ⟨fun x y => htot x y⟩
  exact List.sorted_insertionSort r l

theorem map_orderedInsert_rel {β : Type*} {r' : β → β → Prop} [DecidableRel r']
    (f : α → β) (hiff : ∀ a b, r a b ↔ r' (f a) (f b)) (a : α) :
    ∀ l : List α, (l.orderedInsert r a).map f = (l.map f).orderedInsert r' (f a)
  | [] => rfl
  | b :: t => by
    by_cases hab : r a b
    · simp only [List.orderedInsert, if_pos hab, List.map_cons,
        if_pos ((hiff a b).mp hab)]
    · simp only [List.orderedInsert, if_neg hab, List.map_cons,
        if_neg (fun h => hab ((hiff a b).mpr h))]
      rw [map_orderedInsert_rel f hiff a t]

theorem map_insertionSort_rel {β : Type*} {r' : β → β → Prop} [DecidableRel r']
    (f : α → β) (hiff : ∀ a b, r a b ↔ r' (f a) (f b)) :
    ∀ l : List α, (List.insertionSort r l).map f = List.insertionSort r' (l.map f)
  | [] => rfl
  | a :: l => by
    show ((List.insertionSort r l).orderedInsert r a).map f = _
    rw [map_orderedInsert_rel f hiff a _, map_insertionSort_rel f hiff l]
    rfl

theorem filter_key_map {β : Type*} (f : α → β) (q : β → Bool) :
    ∀ l : List α, (l.filter fun a => q (f a)).map f = (l.map f).filter q
  | [] => rfl
  | a :: l => by
    by_cases h : q (f a) = true <;>
      simp [List.filter_cons, h, filter_key_map f q l]

end SortFacts

/-! ## Similarity-fusion facts (claims C4 and C8) -/

namespace Embedding

theorem dotL_nil (w : List ℝ) : dotL [] w = 0 := rfl

theorem dotL_cons (a b : ℝ) (v w : List ℝ) :
    dotL (a :: v) (b :: w) = a * b + dotL v w := by
  simp [dotL]

theorem dotL_self_nonneg : ∀ v : List ℝ, 0 ≤ dotL v v
  | [] => le_refl 0
  | a :: t => by
    have h := dotL_self_nonneg t
    rw [dotL_cons]
    nlinarith [sq_nonneg a]

theorem dotL_self_pos : ∀ v : List ℝ, (∃ x ∈ v, x ≠ 0) → 0 < dotL v v
  | [], h => absurd h (by simp)
  | a :: t, h => by
    have ht := dotL_self_nonneg t
    rw [dotL_cons]
    rcases h with ⟨x, hx, hx0⟩
    rcases List.mem_cons.mp hx with rfl | hxt
    · nlinarith [mul_self_pos.mpr hx0]
    · have := dotL_self_pos t ⟨x, hxt, hx0⟩
      nlinarith [sq_nonneg a]

/-- Discrete Cauchy–Schwarz for the list dot product. -/
theorem dotL_sq_le : ∀ v w : List ℝ, (dotL v w) ^ 2 ≤ dotL v v * dotL w w
  | [], w => by
    rw [dotL_nil, dotL_nil]
    simp
  | a :: v', [] => by
    show dotL (a :: v') [] ^ 2 ≤ _ * dotL [] []
    simp [dotL]
  | a :: v', b :: w' => by
    have IH := dotL_sq_le v' w'
    have hA := dotL_self_nonneg v'
    have hB := dotL_self_nonneg w'
    rw [dotL_cons, dotL_cons, dotL_cons]
    rcases eq_or_lt_of_le hA with hA0 | hApos
    · have hd : dotL v' w' = 0 := by nlinarith [sq_nonneg (dotL v' w')]
      rw [hd, ← hA0]
      nlinarith [mul_nonneg (sq_nonneg a) hB]
    · nlinarith [sq_nonneg (a * dotL v' w' - dotL v' v' * b),
        mul_nonneg (le_of_lt hApos) (sub_nonneg.mpr IH),
        mul_nonneg (sq_nonneg a) (sub_nonneg.mpr IH)]

theorem normL_nonneg (v : List ℝ) : 0 ≤ normL v := Real.sqrt_nonneg _

theorem normL_sq (v : List ℝ) : normL v * normL v = dotL v v :=
  Real.mul_self_sqrt (dotL_self_nonneg v)

/-- Claim C8 — `cosine(v, v) = 1.0` for every vector with a non-zero
component, and the zero-norm guard returns `0.0` (no error) whenever either
argument has zero norm, in particular for a zero vector. -/
theorem claim_C8_cosine_self_and_zero :
    (∀ v : List ℝ, (∃ x ∈ v, x ≠ 0) → cosine_similarity v v = 1) ∧
      ∀ v w : List ℝ, normL v = 0 ∨ normL w = 0 → cosine_similarity v w = 0 := by
  constructor
  · intro v hv
    have hpos : 0 < dotL v v := dotL_self_pos v hv
    have hnorm : normL v ≠ 0 := by
      have : 0 < normL v := Real.sqrt_pos.mpr hpos
      exact ne_of_gt this
    unfold cosine_similarity
    rw [if_neg (by
      rintro (h | h) <;> exact hnorm h)]
    rw [normL_sq v]
    exact div_self (ne_of_gt hpos)
  · intro v w h
    unfold cosine_similarity
    rw [if_pos h]

theorem normL_zero_single : normL [(0 : ℝ)] = 0 := by
  unfold normL dotL
  simp

theorem normL_one_single : normL [(1 : ℝ)] = 1 := by
  unfold normL dotL
  simp

theorem cosine_single_one :
    cosine_similarity [(1 : ℝ)] [(1 : ℝ)] = 1 := by
  unfold cosine_similarity
  rw [if_neg (by
    rw [normL_one_single]
    rintro (h | h) <;> exact one_ne_zero h)]
  rw [normL_one_single]
  unfold dotL
  norm_num

/-- Witness for C8 at concrete inputs: `cosine([1],[1]) = 1` and
`cosine([1],[0]) = 0`. -/
theorem claim_C8_witness :
    cosine_similarity [(1 : ℝ)] [(1 : ℝ)] = 1 ∧
      cosine_similarity [(1 : ℝ)] [(0 : ℝ)] = 0 :=
  ⟨claim_C8_cosine_self_and_zero.1 [(1 : ℝ)] ⟨1, List.mem_singleton_self 1, one_ne_zero⟩,
    claim_C8_cosine_self_and_zero.2 [(1 : ℝ)] [(0 : ℝ)] (Or.inr normL_zero_single)⟩

/-- Counterexample for C4 as stated: the cosine computation clamps nothing,
`cosine([1], [-1])` is `-1`, strictly below the claimed `[0, 1]` range. -/
theorem claim_C4_counterexample :
    cosine_similarity [(1 : ℝ)] [(-1 : ℝ)] = -1 ∧ ((-1 : ℝ) < 0) := by
  constructor
  · have hm : normL [(-1 : ℝ)] = 1 := by
      unfold normL dotL
      simp
    unfold cosine_similarity
    rw [if_neg (by
      rw [normL_one_single, hm]
      rintro (h | h) <;> exact one_ne_zero h)]
    rw [normL_one_single, hm]
    unfold dotL
    norm_num
  · norm_num

/-- Claim C4, amended — every similarity the cosine computation produces
lies in `[-1, 1]` (Cauchy–Schwarz); negative cosines are *not* clamped to
`[0, 1]`. -/
theorem claim_C4_cosine_range (v w : List ℝ) :
    -1 ≤ cosine_similarity v w ∧ cosine_similarity v w ≤ 1 := by
  unfold cosine_similarity
  by_cases h : normL v = 0 ∨ normL w = 0
  · rw [if_pos h]
    norm_num
  · rw [if_neg h]
    push_neg at h
    have hv : 0 < normL v := lt_of_le_of_ne (normL_nonneg v) (Ne.symm h.1)
    have hw : 0 < normL w := lt_of_le_of_ne (normL_nonneg w) (Ne.symm h.2)
    have hvw : 0 < normL v * normL w := mul_pos hv hw
    have hsq : (dotL v w) ^ 2 ≤ (normL v * normL w) ^ 2 := by
      have : (normL v * normL w) ^ 2 = dotL v v * dotL w w := by
        have h1 := normL_sq v
        have h2 := normL_sq w
        ring_nf
        nlinarith [normL_sq v, normL_sq w]
      rw [this]
      exact dotL_sq_le v w
    have hlow : -(normL v * normL w) ≤ dotL v w := by
      nlinarith [sq_nonneg (dotL v w + normL v * normL w)]
    have hhigh : dotL v w ≤ normL v * normL w := by
      nlinarith [sq_nonneg (dotL v w - normL v * normL w)]
    constructor
    · rw [neg_le, ← neg_div]
      exact (div_le_one hvw).mpr (by linarith)
    · exact (div_le_one hvw).mpr hhigh

end Embedding

/-! ## Claim-comparison facts (claims C2 and C5) -/

namespace ClaimService

/-- Claim C5 — when either side has zero claims (after the lazy reparse the
service performs before comparing), `compare_claims` short-circuits to the
empty, zero-statistics, `"unknown"`-risk result with its explanatory
message, rather than raising. -/
theorem claim_C5_empty_short_circuit (src tgt : List ClaimRec)
    (h : src = [] ∨ tgt = []) :
    compareClaims src tgt =
      ⟨src.length, tgt.length, [], 0, 0, 0, "unknown",
        "Could not parse claims from one or both patents.",
        "Manual review required - claims could not be automatically parsed."⟩ := by
  unfold compareClaims
  rcases h with h | h <;> subst h <;> simp

/-- Witness for C5: both sides empty. -/
theorem claim_C5_witness :
    compareClaims [] [] =
      ⟨0, 0, [], 0, 0, 0, "unknown",
        "Could not parse claims from one or both patents.",
        "Manual review required - claims could not be automatically parsed."⟩ :=
  claim_C5_empty_short_circuit [] [] (Or.inl rfl)

theorem foldl_max_cases : ∀ (t : List ℝ) (a : ℝ), t.foldl max a = a ∨ t.foldl max a ∈ t
  | [], a => Or.inl rfl
  | b :: t, a => by
    rcases foldl_max_cases t (max a b) with h | h
    · rcases max_choice a b with hm | hm
      · exact Or.inl (by rw [List.foldl_cons, h, hm])
      · exact Or.inr (by
          rw [List.foldl_cons, h, hm]
          exact List.mem_cons_self b t)
    · exact Or.inr (List.mem_cons_of_mem b h)

theorem init_le_foldl_max : ∀ (t : List ℝ) (a : ℝ), a ≤ t.foldl max a
  | [], _ => le_refl _
  | b :: t, a => le_trans (le_max_left a b) (init_le_foldl_max t (max a b))

theorem mem_le_foldl_max : ∀ (t : List ℝ) (a x : ℝ), x ∈ t → x ≤ t.foldl max a
  | [], _, _, hx => absurd hx (List.not_mem_nil _)
  | b :: t, a, x, hx => by
    rcases List.mem_cons.mp hx with rfl | hxt
    · exact le_trans (le_max_right a x) (init_le_foldl_max t (max a x))
    · exact mem_le_foldl_max t (max a b) x hxt

theorem listMax_mem (l : List ℝ) (h : l ≠ []) : listMax l ∈ l := by
  cases l with
  | nil => exact absurd rfl h
  | cons a t =>
    show t.foldl max a ∈ a :: t
    rcases foldl_max_cases t a with h1 | h1
    · rw [h1]
      exact List.mem_cons_self a t
    · exact List.mem_cons_of_mem a h1

theorem le_listMax (l : List ℝ) (x : ℝ) (hx : x ∈ l) : x ≤ listMax l := by
  cases l with
  | nil => exact absurd hx (List.not_mem_nil x)
  | cons a t =>
    rcases List.mem_cons.mp hx with rfl | hxt
    · exact init_le_foldl_max t x
    · exact mem_le_foldl_max t a x hxt

/-- Claim C2 — for a comparison with at least one kept match,
`compare_claims` reports as `highest_similarity` the maximum similarity over
*all* kept matches, as `average_similarity` their mean (not only the top
10), and as `independent_claims_at_risk` the number of distinct source claim
numbers that are independent and occur in a kept match with similarity at
least the medium threshold 0.6; with no kept match, all three statistics are
zero. -/
theorem claim_C2_compare_statistics (src tgt : List ClaimRec)
    (hs : src ≠ []) (ht : tgt ≠ []) :
    (allMatches src tgt ≠ [] →
      ((compareClaims src tgt).highest_similarity
          ∈ (allMatches src tgt).map (fun m => m.similarity)
        ∧ ∀ x ∈ (allMatches src tgt).map (fun m => m.similarity),
            x ≤ (compareClaims src tgt).highest_similarity)
      ∧ (compareClaims src tgt).average_similarity
          = ((allMatches src tgt).map (fun m => m.similarity)).sum
            / ((allMatches src tgt).length : ℝ)
      ∧ (compareClaims src tgt).independent_claims_at_risk
          = (((allMatches src tgt).filter fun m =>
              m.source.is_independent && decide (m.similarity ≥ 0.6)).map
              (fun m => m.source.claim_number)).toFinset.card)
    ∧ (allMatches src tgt = [] →
        (compareClaims src tgt).highest_similarity = 0
        ∧ (compareClaims src tgt).average_similarity = 0
        ∧ (compareClaims src tgt).independent_claims_at_risk = 0) := by
  have hcond : ¬(src.isEmpty || tgt.isEmpty) = true := by
    simp only [Bool.or_eq_true, List.isEmpty_iff]
    rintro (h | h)
    · exact hs h
    · exact ht h
  have hperm : List.Perm (sortMatches (allMatches src tgt)) (allMatches src tgt) :=
    List.perm_insertionSort _ _
  have hH : (compareClaims src tgt).highest_similarity
      = listMax (if (sortMatches (allMatches src tgt)).isEmpty then [(0 : ℝ)]
          else (sortMatches (allMatches src tgt)).map (fun m => m.similarity)) := by
    unfold compareClaims
    rw [if_neg hcond]
  have hA : (compareClaims src tgt).average_similarity
      = (if (sortMatches (allMatches src tgt)).isEmpty then [(0 : ℝ)]
          else (sortMatches (allMatches src tgt)).map (fun m => m.similarity)).sum
        / ((if (sortMatches (allMatches src tgt)).isEmpty then [(0 : ℝ)]
          else (sortMatches (allMatches src tgt)).map (fun m => m.similarity)).length : ℝ) := by
    unfold compareClaims
    rw [if_neg hcond]
  have hR : (compareClaims src tgt).independent_claims_at_risk
      = (((sortMatches (allMatches src tgt)).filter fun m =>
          m.source.is_independent && decide (m.similarity ≥ 0.6)).map
          (fun m => m.source.claim_number)).dedup.length := by
    unfold compareClaims
    rw [if_neg hcond]
  constructor
  · intro hne
    have hsne : ¬(sortMatches (allMatches src tgt)).isEmpty = true := by
      simp only [List.isEmpty_iff]
      intro h0
      have hp2 := hperm
      rw [h0] at hp2
      exact hne hp2.symm.eq_nil
    have hmne : (sortMatches (allMatches src tgt)).map (fun m => m.similarity) ≠ [] := by
      intro h0
      exact hsne (by
        simp only [List.isEmpty_iff]
        exact List.map_eq_nil_iff.mp h0)
    have hpermMap : List.Perm
        ((sortMatches (allMatches src tgt)).map (fun m => m.similarity))
        ((allMatches src tgt).map (fun m => m.similarity)) :=
      hperm.map _
    refine ⟨⟨?_, ?_⟩, ?_, ?_⟩
    · rw [hH, if_neg hsne]
      exact hpermMap.mem_iff.mp (listMax_mem _ hmne)
    · intro x hx
      rw [hH, if_neg hsne]
      exact le_listMax _ x (hpermMap.mem_iff.mpr hx)
    · rw [hA, if_neg hsne, hpermMap.sum_eq, List.length_map, hperm.length_eq]
    · rw [hR]
      have hpermF : List.Perm
          (((sortMatches (allMatches src tgt)).filter fun m =>
            m.source.is_independent && decide (m.similarity ≥ 0.6)).map
            (fun m => m.source.claim_number))
          (((allMatches src tgt).filter fun m =>
            m.source.is_independent && decide (m.similarity ≥ 0.6)).map
            (fun m => m.source.claim_number)) :=
        (hperm.filter _).map _
      rw [← List.card_toFinset, List.toFinset_eq_of_perm _ _ hpermF]
  · intro hnil
    have hsnil : sortMatches (allMatches src tgt) = [] := by
      rw [hnil]
      rfl
    refine ⟨?_, ?_, ?_⟩
    · rw [hH, hsnil]
      norm_num [listMax]
    · rw [hA, hsnil]
      norm_num
    · rw [hR, hsnil]
      rfl

/-- Witness for C2: two one-claim patents whose (unit) embeddings give a
single kept match of similarity 1. -/
theorem claim_C2_witness :
    allMatches [⟨1, true, some [1]⟩] [⟨7, true, some [1]⟩] ≠ []
    ∧ ((allMatches [⟨1, true, some [1]⟩] [⟨7, true, some [1]⟩] ≠ [] →
        ((compareClaims [⟨1, true, some [1]⟩] [⟨7, true, some [1]⟩]).highest_similarity
            ∈ (allMatches [⟨1, true, some [1]⟩] [⟨7, true, some [1]⟩]).map
              (fun m => m.similarity)
          ∧ ∀ x ∈ (allMatches [⟨1, true, some [1]⟩] [⟨7, true, some [1]⟩]).map
              (fun m => m.similarity),
              x ≤ (compareClaims [⟨1, true, some [1]⟩]
                [⟨7, true, some [1]⟩]).highest_similarity)
        ∧ (compareClaims [⟨1, true, some [1]⟩] [⟨7, true, some [1]⟩]).average_similarity
            = ((allMatches [⟨1, true, some [1]⟩] [⟨7, true, some [1]⟩]).map
                (fun m => m.similarity)).sum
              / ((allMatches [⟨1, true, some [1]⟩] [⟨7, true, some [1]⟩]).length : ℝ)
        ∧ (compareClaims [⟨1, true, some [1]⟩]
              [⟨7, true, some [1]⟩]).independent_claims_at_risk
            = (((allMatches [⟨1, true, some [1]⟩] [⟨7, true, some [1]⟩]).filter fun m =>
                m.source.is_independent && decide (m.similarity ≥ 0.6)).map
                (fun m => m.source.claim_number)).toFinset.card)
      ∧ (allMatches [⟨1, true, some [1]⟩] [⟨7, true, some [1]⟩] = [] →
          (compareClaims [⟨1, true, some [1]⟩] [⟨7, true, some [1]⟩]).highest_similarity = 0
          ∧ (compareClaims [⟨1, true, some [1]⟩] [⟨7, true, some [1]⟩]).average_similarity = 0
          ∧ (compareClaims [⟨1, true, some [1]⟩]
              [⟨7, true, some [1]⟩]).independent_claims_at_risk = 0)) := by
  have hall : allMatches [⟨1, true, some [1]⟩] [⟨7, true, some [1]⟩]
      = [⟨⟨1, true, some [1]⟩, ⟨7, true, some [1]⟩, 1, "high"⟩] := by
    unfold allMatches
    simp only [List.flatMap_cons, List.flatMap_nil, List.filterMap_cons, List.filterMap_nil,
      List.append_nil, truthy, List.isEmpty_cons, Bool.not_false, Bool.and_self, if_true,
      Option.getD_some, Embedding.cosine_single_one]
    rw [if_pos (by norm_num : (1:ℝ) ≥ 0.5)]
    unfold riskLevel
    rw [if_pos (by norm_num : (1:ℝ) ≥ 0.8)]
  refine ⟨?_, claim_C2_compare_statistics [⟨1, true, some [1]⟩] [⟨7, true, some [1]⟩]
    (List.cons_ne_nil _ _) (List.cons_ne_nil _ _)⟩
  rw [hall]
  exact List.cons_ne_nil _ _

end ClaimService

/-! ## Fuzzy-search facts (claim C10) -/

namespace Search

/-- Every patent emitted by `fuzzy_search` is the last stored patent with
its search text: the text-keyed `patent_map` forgets all earlier patents
sharing a `"title abstract"` string. -/
theorem mem_fuzzySearch_lastWithText (patents : List Patent) (score : String → ℚ)
    (limit : Nat) (threshold : ℚ) (p : Patent) (s : ℚ)
    (h : (p, s) ∈ fuzzySearch patents score limit threshold) :
    lastWithText patents (searchText p) = some p := by
  unfold fuzzySearch at h
  rcases List.mem_filterMap.mp h with ⟨m, _, hm⟩
  by_cases ht : threshold ≤ m.2
  · rw [if_pos ht] at hm
    rcases Option.map_eq_some'.mp hm with ⟨x, hx, hxe⟩
    have hxp : x = p := congrArg Prod.fst hxe
    subst hxp
    have hxmem : x ∈ patents.filter fun q => searchText q == m.1 :=
      List.mem_of_mem_getLast? (show x ∈ _ from hx)
    have htext : searchText x = m.1 := by
      have := (List.mem_filter.mp hxmem).2
      simpa using this
    rw [htext]
    exact hx
  · rw [if_neg ht] at hm
    simp at hm

/-- Claim C10 — two stored documents with identical title and abstract can
never both appear among the fuzzy candidates of a query: the candidate map
is keyed by the concatenated `"title abstract"` string, so the earlier one
is silently dropped before merging. -/
theorem claim_C10_fuzzy_duplicate_text (patents : List Patent)
    (score : String → ℚ) (limit : Nat) (threshold : ℚ) (p q : Patent) (s : ℚ)
    (hpq : searchText p = searchText q) (hne : p ≠ q)
    (hp : (p, s) ∈ fuzzySearch patents score limit threshold) :
    ∀ s', (q, s') ∉ fuzzySearch patents score limit threshold := by
  intro s' hq
  have h1 := mem_fuzzySearch_lastWithText patents score limit threshold p s hp
  have h2 := mem_fuzzySearch_lastWithText patents score limit threshold q s' hq
  rw [hpq] at h1
  exact hne (Option.some.inj (h1.symm.trans h2))

/-- Witness for C10: of two stored patents with identical title and
abstract, only the later one appears among the fuzzy candidates. -/
theorem claim_C10_witness :
    searchText ⟨2, "t", "a"⟩ = searchText ⟨1, "t", "a"⟩
    ∧ (⟨2, "t", "a"⟩ : Patent) ≠ ⟨1, "t", "a"⟩
    ∧ ((⟨2, "t", "a"⟩ : Patent), (1 : ℚ))
        ∈ fuzzySearch [⟨1, "t", "a"⟩, ⟨2, "t", "a"⟩] (fun _ => 100) 5 80
    ∧ ((⟨1, "t", "a"⟩ : Patent), (1 : ℚ))
        ∉ fuzzySearch [⟨1, "t", "a"⟩, ⟨2, "t", "a"⟩] (fun _ => 100) 5 80 := by
  have hfs : fuzzySearch [⟨1, "t", "a"⟩, ⟨2, "t", "a"⟩] (fun _ => 100) 5 80
      = [(⟨2, "t", "a"⟩, 1), (⟨2, "t", "a"⟩, 1)] := by
    norm_num [fuzzySearch, extract, lastWithText, searchText,
      List.insertionSort, List.orderedInsert, List.filterMap_cons, List.find?]
  have hmem : ((⟨2, "t", "a"⟩ : Patent), (1 : ℚ))
      ∈ fuzzySearch [⟨1, "t", "a"⟩, ⟨2, "t", "a"⟩] (fun _ => 100) 5 80 := by
    rw [hfs]
    exact List.mem_cons_self _ _
  exact ⟨rfl, by decide, hmem,
    claim_C10_fuzzy_duplicate_text [⟨1, "t", "a"⟩, ⟨2, "t", "a"⟩] (fun _ => 100) 5 80
      ⟨2, "t", "a"⟩ ⟨1, "t", "a"⟩ 1 rfl (by decide) hmem 1⟩

/-! ## Hybrid-search facts (claims C1 and C3) -/

theorem sorted_sortByCombined (l : List SearchResult) :
    (sortByCombined l).Sorted
      (fun a b => b.combined_score ≤ a.combined_score) :=
  @sorted_insertionSort_of SearchResult
    (fun a b => b.combined_score ≤ a.combined_score) _
    (fun _ _ _ h1 h2 => le_trans h2 h1)
    (fun a b => le_total b.combined_score a.combined_score) l

/-- Whenever a merged candidate at or above the similarity floor sits
outside the truncation window, the window is entirely at or above the floor,
so the filter keeps all of it and the call returns exactly `limit` results. -/
theorem hybrid_length_eq_limit_of_outside
    (vrows frows : List (Nat × ℚ)) (limit : Nat) (vw fw minSim : ℚ)
    (r : SearchResult)
    (hr : r ∈ (sortByCombined (mergedVals vrows frows vw fw)).drop limit)
    (hfloor : minSim ≤ r.combined_score) :
    (hybridSearch vrows frows limit vw fw minSim).length = limit := by
  have hs := sorted_sortByCombined (mergedVals vrows frows vw fw)
  have hall : ∀ x ∈ (sortByCombined (mergedVals vrows frows vw fw)).take limit,
      (fun x : SearchResult => decide (minSim ≤ x.combined_score)) x = true := by
    intro x hx
    have hxy : r.combined_score ≤ x.combined_score :=
      hs.rel_of_mem_take_of_mem_drop hx hr
    exact decide_eq_true (le_trans hfloor hxy)
  unfold hybridSearch
  rw [List.filter_eq_self.mpr hall, List.length_take]
  have hlen : limit < (sortByCombined (mergedVals vrows frows vw fw)).length := by
    by_contra hle
    push_neg at hle
    rw [List.drop_eq_nil_iff.mpr hle] at hr
    exact absurd hr (List.not_mem_nil r)
  exact Nat.min_eq_left (le_of_lt hlen)

/-- Claim C1, amended — the pipeline sorts descending by combined score,
truncates to `limit`, then filters by the floor; consequently it can return
fewer than `limit` results only because entries inside the window fall below
the floor: whenever fewer than `limit` results are returned, every merged
candidate at or above the floor is in the result. -/
theorem claim_C1_truncate_then_filter
    (vrows frows : List (Nat × ℚ)) (limit : Nat) (vw fw minSim : ℚ)
    (hshort : (hybridSearch vrows frows limit vw fw minSim).length < limit) :
    ∀ r ∈ mergedVals vrows frows vw fw, minSim ≤ r.combined_score →
      r ∈ hybridSearch vrows frows limit vw fw minSim := by
  intro r hr hfloor
  have hrs : r ∈ sortByCombined (mergedVals vrows frows vw fw) :=
    (List.perm_insertionSort _ _).mem_iff.mpr hr
  rw [← List.take_append_drop limit
    (sortByCombined (mergedVals vrows frows vw fw))] at hrs
  rcases List.mem_append.mp hrs with htake | hdrop
  · unfold hybridSearch
    exact List.mem_filter.mpr ⟨htake, decide_eq_true hfloor⟩
  · exact absurd hshort (by
      rw [hybrid_length_eq_limit_of_outside vrows frows limit vw fw minSim r hdrop hfloor]
      exact lt_irrefl limit)

/-- Counterexample for C1 as stated: with three vector candidates all at
the floor and `limit = 2`, a candidate at or above the floor sits outside
the truncation window, yet the call returns exactly `limit` results — never
fewer while qualifying candidates are being cut by the truncation. -/
theorem claim_C1_counterexample :
    ((sortByCombined (mergedVals [(1, 1), (2, 1), (3, 1)] [] (7/10) (3/10))).drop 2).map
        (fun r => r.combined_score) = [7/10]
    ∧ ((7 : ℚ)/10 ≤ 7/10)
    ∧ (hybridSearch [(1, 1), (2, 1), (3, 1)] [] 2 (7/10) (3/10) (7/10)).length = 2 := by
  refine ⟨?_, le_refl _, ?_⟩ <;>
    norm_num [hybridSearch, mergedVals, vectorPass, fuzzyPass, dictInsert, dictUpdate,
      hasKey, withCombined, sortByCombined, List.insertionSort, List.orderedInsert]

/-- Witness for the amended C1 at a concrete input: a single below-floor
candidate gives fewer than `limit` results, and every merged candidate at or
above the floor (there is none) is returned. -/
theorem claim_C1_witness :
    (hybridSearch [(1, 1/2)] [] 2 (7/10) (3/10) (7/10)).length < 2
    ∧ ∀ r ∈ mergedVals [(1, 1/2)] [] (7/10) (3/10), (7 : ℚ)/10 ≤ r.combined_score →
        r ∈ hybridSearch [(1, 1/2)] [] 2 (7/10) (3/10) (7/10) := by
  have hlen : (hybridSearch [(1, 1/2)] [] 2 (7/10) (3/10) (7/10)).length < 2 := by
    norm_num [hybridSearch, mergedVals, vectorPass, fuzzyPass, dictInsert, dictUpdate,
      hasKey, withCombined, sortByCombined, List.insertionSort, List.orderedInsert]
  exact ⟨hlen, claim_C1_truncate_then_filter [(1, 1/2)] [] 2 (7/10) (3/10) (7/10) hlen⟩

/-- With weights `(1, 0)`, the id/combined-score projection of the merged
list is the vector-only projection followed by fuzzy-only entries whose
combined score is `0`. -/
theorem fuzzyPass_proj (frows : List (Nat × ℚ)) :
    ∀ d : List (Nat × SearchResult), ∃ Z : List (Nat × ℚ),
      (fuzzyPass frows d).map (fun p => (p.2.patent_id, p.2.vector_score))
        = d.map (fun p => (p.2.patent_id, p.2.vector_score)) ++ Z
      ∧ ∀ z ∈ Z, z.2 = 0 := by
  induction frows with
  | nil => exact fun d => ⟨[], by simp [fuzzyPass]⟩
  | cons r frows IH =>
    intro d
    show ∃ Z, (fuzzyPass frows _).map _ = _ ∧ _
    by_cases hk : hasKey d r.1 = true
    · have hupd : (dictUpdate d r.1 fun s =>
          { s with fuzzy_score := r.2, match_type := "hybrid" }).map
            (fun p => (p.2.patent_id, p.2.vector_score))
          = d.map (fun p => (p.2.patent_id, p.2.vector_score)) := by
        unfold dictUpdate
        rw [List.map_map]
        refine List.map_congr_left ?_
        intro p _
        by_cases hp : (p.1 == r.1) = true
        · have h := eq_of_beq hp
          simp [h]
        · have h : ¬ p.1 = r.1 := by simpa using hp
          simp [h]
      rcases IH (dictUpdate d r.1 fun s =>
          { s with fuzzy_score := r.2, match_type := "hybrid" }) with ⟨Z, hZ, hZ0⟩
      refine ⟨Z, ?_, hZ0⟩
      show (fuzzyPass frows (if hasKey d r.1 = true then _ else _)).map _ = _
      rw [if_pos hk, hZ, hupd]
    · rcases IH (d ++ [(r.1, ⟨r.1, 0, r.2, 0, "fuzzy"⟩)]) with ⟨Z, hZ, hZ0⟩
      refine ⟨(r.1, 0) :: Z, ?_, ?_⟩
      · show (fuzzyPass frows (if hasKey d r.1 = true then _ else _)).map _ = _
        rw [if_neg hk, hZ, List.map_append]
        simp
      · intro z hz
        rcases List.mem_cons.mp hz with rfl | hz'
        · rfl
        · exact hZ0 z hz'

theorem withCombined_one_zero_proj (s : SearchResult) :
    ((withCombined 1 0 s).patent_id, (withCombined 1 0 s).combined_score)
      = (s.patent_id, s.vector_score) := by
  unfold withCombined
  simp

/-- Claim C3, amended — `hybrid_search` takes the fuzzy weight as an
independent parameter (default `0.3`), but the search API route always
passes `fuzzy_weight = 1 - vector_weight`; a search carried out with
`vector_weight = 1` and `fuzzy_weight = 1 - 1 = 0` produces exactly the
pure vector-ranking results (same ids and combined scores as with no fuzzy
candidates at all) and its combined scores carry zero fuzzy contribution. -/
theorem claim_C3_vector_weight_one
    (vrows frows : List (Nat × ℚ)) (limit : Nat) (minSim : ℚ) (hpos : 0 < minSim) :
    apiFuzzyWeight 1 = 0
    ∧ (hybridSearch vrows frows limit 1 0 minSim).map
        (fun r => (r.patent_id, r.combined_score))
      = (hybridSearch vrows [] limit 1 0 minSim).map
        (fun r => (r.patent_id, r.combined_score))
    ∧ ∀ r ∈ hybridSearch vrows frows limit 1 0 minSim,
        r.combined_score = r.vector_score := by
  have hq0 : ∀ z : Nat × ℚ, z.2 = 0 → decide (minSim ≤ z.2) = false := by
    intro z hz
    rw [hz]
    exact decide_eq_false (not_le.mpr hpos)
  have htr : ∀ a b c : Nat × ℚ, b.2 ≤ a.2 → c.2 ≤ b.2 → c.2 ≤ a.2 :=
    fun _ _ _ h1 h2 => le_trans h2 h1
  have htot : ∀ a b : Nat × ℚ, b.2 ≤ a.2 ∨ a.2 ≤ b.2 :=
    fun a b => le_total b.2 a.2
  have hp : ∀ a b : Nat × ℚ, b.2 ≤ a.2 →
      (fun x : Nat × ℚ => decide (minSim ≤ x.2)) b = true →
      (fun x : Nat × ℚ => decide (minSim ≤ x.2)) a = true := by
    intro a b hab hb
    exact decide_eq_true (le_trans (of_decide_eq_true hb) hab)
  -- the id/score projection of each pipeline stage
  have hsort : ∀ M : List SearchResult,
      (sortByCombined M).map (fun r => (r.patent_id, r.combined_score))
        = List.insertionSort (fun x y : Nat × ℚ => y.2 ≤ x.2)
          (M.map fun r => (r.patent_id, r.combined_score)) := fun M =>
    @map_insertionSort_rel SearchResult
      (fun a b => b.combined_score ≤ a.combined_score) _
      (Nat × ℚ) (fun x y => y.2 ≤ x.2) _
      (fun r => (r.patent_id, r.combined_score)) (fun _ _ => Iff.rfl) M
  have key : ∀ M : List SearchResult,
      ((((sortByCombined M).take limit).filter
          fun r => decide (minSim ≤ r.combined_score)).map
        (fun r => (r.patent_id, r.combined_score)))
      = ((List.insertionSort (fun x y : Nat × ℚ => y.2 ≤ x.2)
          (M.map fun r => (r.patent_id, r.combined_score))).take limit).filter
          (fun x : Nat × ℚ => decide (minSim ≤ x.2)) := by
    intro M
    have h1 := filter_key_map (fun r : SearchResult => (r.patent_id, r.combined_score))
      (fun x : Nat × ℚ => decide (minSim ≤ x.2)) ((sortByCombined M).take limit)
    have h2 : ((sortByCombined M).take limit).map
          (fun r : SearchResult => (r.patent_id, r.combined_score))
        = (List.insertionSort (fun x y : Nat × ℚ => y.2 ≤ x.2)
            (M.map fun r => (r.patent_id, r.combined_score))).take limit := by
      rw [List.map_take, hsort M]
    exact h1.trans (congrArg _ h2)
  -- junk elimination at the pair level
  have pairEq : ∀ A Z : List (Nat × ℚ), (∀ z ∈ Z, z.2 = 0) →
      ((List.insertionSort (fun x y : Nat × ℚ => y.2 ≤ x.2) (A ++ Z)).take limit).filter
          (fun x : Nat × ℚ => decide (minSim ≤ x.2))
        = ((List.insertionSort (fun x y : Nat × ℚ => y.2 ≤ x.2) A).take limit).filter
          (fun x : Nat × ℚ => decide (minSim ≤ x.2)) := by
    intro A Z hZ
    have hZnil : Z.filter (fun x : Nat × ℚ => decide (minSim ≤ x.2)) = [] :=
      List.filter_eq_nil_iff.mpr fun z hz => by
        rw [hq0 z (hZ z hz)]
        simp
    have hs1 := sorted_insertionSort_of htr htot (A ++ Z)
    have hs2 := sorted_insertionSort_of htr htot A
    rw [filter_take_of_sorted hp _ hs1, filter_take_of_sorted hp _ hs2,
      filter_insertionSort_comm htr htot hp, filter_insertionSort_comm htr htot hp,
      List.filter_append, hZnil, List.append_nil]
  -- projections of the two merged lists
  have hcomp : ∀ fr : List (Nat × ℚ),
      (mergedVals vrows fr 1 0).map (fun r => (r.patent_id, r.combined_score))
        = (fuzzyPass fr (vectorPass vrows)).map
            (fun p => (p.2.patent_id, p.2.vector_score)) := by
    intro fr
    unfold mergedVals
    rw [List.map_map, List.map_map]
    exact List.map_congr_left fun p _ => withCombined_one_zero_proj p.2
  have hM0 : (mergedVals vrows [] 1 0).map (fun r => (r.patent_id, r.combined_score))
      = (vectorPass vrows).map (fun p => (p.2.patent_id, p.2.vector_score)) := by
    rw [hcomp []]
    rfl
  have hM : ∃ Z : List (Nat × ℚ),
      (mergedVals vrows frows 1 0).map (fun r => (r.patent_id, r.combined_score))
        = (vectorPass vrows).map (fun p => (p.2.patent_id, p.2.vector_score)) ++ Z
      ∧ ∀ z ∈ Z, z.2 = 0 := by
    rcases fuzzyPass_proj frows (vectorPass vrows) with ⟨Z, hZ, hZ0⟩
    exact ⟨Z, (hcomp frows).trans hZ, hZ0⟩
  refine ⟨by unfold apiFuzzyWeight; norm_num, ?_, ?_⟩
  · rcases hM with ⟨Z, hZ, hZ0⟩
    refine ((key (mergedVals vrows frows 1 0)).trans ?_).trans
      (key (mergedVals vrows [] 1 0)).symm
    rw [hZ, hM0]
    exact pairEq _ Z hZ0
  · intro r hr
    have hr1 : r ∈ (sortByCombined (mergedVals vrows frows 1 0)).take limit :=
      List.mem_of_mem_filter hr
    have hr2 : r ∈ mergedVals vrows frows 1 0 :=
      (List.perm_insertionSort _ _).mem_iff.mp (List.mem_of_mem_take hr1)
    unfold mergedVals at hr2
    rcases List.mem_map.mp hr2 with ⟨s, _, hs⟩
    rw [← hs]
    unfold withCombined
    simp

/-- Counterexample for C3 as stated: invoking the hybrid search with
`vector_weight = 1.0` but the function's independent default
`fuzzy_weight = 0.3` re-ranks the candidates (fuzzy contribution is not
zero), unlike a pure vector search. -/
theorem claim_C3_counterexample :
    (hybridSearch [(1, 8/10), (2, 3/4)] [(2, 1)] 2 1 (3/10) (7/10)).map
        (fun r => (r.patent_id, r.combined_score)) = [(2, 21/20), (1, 4/5)]
    ∧ (hybridSearch [(1, 8/10), (2, 3/4)] [] 2 1 0 (7/10)).map
        (fun r => (r.patent_id, r.combined_score)) = [(1, 4/5), (2, 3/4)] := by
  constructor <;>
    norm_num [hybridSearch, mergedVals, vectorPass, fuzzyPass, dictInsert, dictUpdate,
      hasKey, withCombined, sortByCombined, List.insertionSort, List.orderedInsert]

/-- Witness for the amended C3 at a concrete floor `0.7 > 0`. -/
theorem claim_C3_witness :
    (0 : ℚ) < 7/10
    ∧ (apiFuzzyWeight 1 = 0
      ∧ (hybridSearch [(1, 8/10)] [(2, 1)] 3 1 0 (7/10)).map
          (fun r => (r.patent_id, r.combined_score))
        = (hybridSearch [(1, 8/10)] [] 3 1 0 (7/10)).map
          (fun r => (r.patent_id, r.combined_score))
      ∧ ∀ r ∈ hybridSearch [(1, 8/10)] [(2, 1)] 3 1 0 (7/10),
          r.combined_score = r.vector_score) :=
  ⟨by norm_num,
    claim_C3_vector_weight_one [(1, 8/10)] [(2, 1)] 3 (7/10) (by norm_num)⟩

end Search

/-! ## Prior-art grouping facts (claim C7) -/

namespace PriorArt

theorem listMaxQ_append_singleton (l : List ℚ) (s : ℚ) :
    listMaxQ (l ++ [s]) = if listMaxQ l < s then s else listMaxQ l := by
  unfold listMaxQ
  rw [List.foldl_append]
  rfl

theorem foldl_max_lt (c : ℚ) :
    ∀ (l : List ℚ) (a : ℚ), a < c → (∀ s ∈ l, s < c) →
      l.foldl (fun a s => if a < s then s else a) a < c
  | [], a, ha, _ => ha
  | s :: t, a, ha, hl => by
    have hs : s < c := hl s (List.mem_cons_self s t)
    have ht : ∀ x ∈ t, x < c := fun x hx => hl x (List.mem_cons_of_mem s hx)
    show List.foldl _ (if a < s then s else a) t < c
    by_cases h : a < s
    · rw [if_pos h]
      exact foldl_max_lt c t s hs ht
    · rw [if_neg h]
      exact foldl_max_lt c t a ha ht

theorem listMaxQ_lt (l : List ℚ) (c : ℚ) (h0 : 0 < c) (h : ∀ s ∈ l, s < c) :
    listMaxQ l < c :=
  foldl_max_lt c l 0 h0 h

theorem paUpd_patent_id (r : PARow) (e : PAEntry) :
    (paUpd r e).patent_id = e.patent_id := by
  unfold paUpd
  split_ifs <;> rfl

/-- The grouping loop of `search_prior_art`, characterised: after
processing `rows`, each map entry holds exactly the rows of its patent (in
encounter order, tagged with their risk level) and the running maximum of
their similarities started at 0; and every processed row's patent has an
entry. -/
theorem paMap_char (rows : List PARow) :
    (∀ e ∈ paMap rows,
        e.blocking_claims
            = (rows.filter fun r => e.patent_id == r.patent_id).map
                (fun r => (r, paRisk r.similarity))
          ∧ e.highest_similarity
            = listMaxQ ((rows.filter fun r => e.patent_id == r.patent_id).map
                fun r => r.similarity))
    ∧ ∀ r ∈ rows, (paMap rows).any fun e => e.patent_id == r.patent_id := by
  induction rows using List.reverseRecOn with
  | nil => simp [paMap]
  | append_singleton rs r IH =>
    obtain ⟨IHchar, IHcover⟩ := IH
    have hfold : paMap (rs ++ [r]) = paStep (paMap rs) r := by
      unfold paMap
      rw [List.foldl_append]
      rfl
    have hfilter_ne : ∀ pid, (pid == r.patent_id) = false →
        ((rs ++ [r]).filter fun r' => pid == r'.patent_id)
          = rs.filter fun r' => pid == r'.patent_id := by
      intro pid hne
      rw [List.filter_append]
      simp [hne]
    have hfilter_eq : ∀ pid, (pid == r.patent_id) = true →
        ((rs ++ [r]).filter fun r' => pid == r'.patent_id)
          = (rs.filter fun r' => pid == r'.patent_id) ++ [r] := by
      intro pid heq
      rw [List.filter_append]
      simp [heq]
    -- an entry of `paMap rs` keeps the characterisation through one step
    have hstepChar : ∀ e ∈ paMap rs,
        (paUpd r e).blocking_claims
            = ((rs ++ [r]).filter fun r' => (paUpd r e).patent_id == r'.patent_id).map
                (fun r => (r, paRisk r.similarity))
          ∧ (paUpd r e).highest_similarity
            = listMaxQ (((rs ++ [r]).filter fun r' =>
                (paUpd r e).patent_id == r'.patent_id).map fun r => r.similarity) := by
      intro e hemem
      obtain ⟨hc, hh⟩ := IHchar e hemem
      rw [paUpd_patent_id]
      unfold paUpd
      by_cases hkey : (e.patent_id == r.patent_id) = true
      · rw [if_pos hkey]
        refine ⟨?_, ?_⟩
        · show e.blocking_claims ++ [(r, paRisk r.similarity)] = _
          rw [hfilter_eq e.patent_id hkey, List.map_append, hc]
          rfl
        · show (if e.highest_similarity < r.similarity then r.similarity
            else e.highest_similarity) = _
          rw [hfilter_eq e.patent_id hkey, List.map_append]
          simp only [List.map_cons, List.map_nil]
          rw [listMaxQ_append_singleton, hh]
      · rw [if_neg hkey]
        rw [hfilter_ne e.patent_id (by simpa using hkey)]
        exact ⟨hc, hh⟩
    constructor
    · intro e' he'
      rw [hfold] at he'
      unfold paStep at he'
      by_cases hany : ((paMap rs).any fun e => e.patent_id == r.patent_id) = true
      · rw [if_pos hany] at he'
        rcases List.mem_map.mp he' with ⟨e, hemem, hupd⟩
        rw [← hupd]
        exact hstepChar e hemem
      · rw [if_neg hany] at he'
        rcases List.mem_map.mp he' with ⟨e, hemem, hupd⟩
        rcases List.mem_append.mp hemem with hin | hsing
        · rw [← hupd]
          exact hstepChar e hin
        · -- freshly created entry: its patent has no earlier rows
          have hef : e = ⟨r.patent_id, [], 0⟩ := List.mem_singleton.mp hsing
          have hfilter0 : (rs.filter fun r' => r.patent_id == r'.patent_id) = [] := by
            rw [List.filter_eq_nil_iff]
            intro r' hr' hbeq
            have hpe : r'.patent_id = r.patent_id := (eq_of_beq hbeq).symm
            have hcov := IHcover r' hr'
            rw [hpe] at hcov
            exact absurd hcov hany
          rw [← hupd, hef]
          have hself : (r.patent_id == r.patent_id) = true := beq_self_eq_true _
          unfold paUpd
          simp only [hself, if_true]
          rw [hfilter_eq r.patent_id hself, hfilter0]
          exact ⟨rfl, rfl⟩
    · -- coverage: every processed row's patent has an entry
      intro r' hr'
      rw [hfold]
      unfold paStep
      rcases List.mem_append.mp hr' with hrs | hrr
      · rcases List.any_eq_true.mp (IHcover r' hrs) with ⟨e, hemem, hbeq⟩
        apply List.any_eq_true.mpr
        by_cases hany : ((paMap rs).any fun e => e.patent_id == r.patent_id) = true
        · rw [if_pos hany]
          refine ⟨_, List.mem_map_of_mem _ hemem, ?_⟩
          rw [paUpd_patent_id]
          exact hbeq
        · rw [if_neg hany]
          refine ⟨_, List.mem_map_of_mem _ (List.mem_append_left _ hemem), ?_⟩
          rw [paUpd_patent_id]
          exact hbeq
      · have hrr' : r' = r := List.mem_singleton.mp hrr
        apply List.any_eq_true.mpr
        by_cases hany : ((paMap rs).any fun e => e.patent_id == r.patent_id) = true
        · rw [if_pos hany]
          rcases List.any_eq_true.mp hany with ⟨e, hemem, hbeq⟩
          refine ⟨_, List.mem_map_of_mem _ hemem, ?_⟩
          rw [paUpd_patent_id, hrr']
          exact hbeq
        · rw [if_neg hany]
          refine ⟨_, List.mem_map_of_mem _
            (List.mem_append_right _ (List.mem_singleton_self _)), ?_⟩
          rw [paUpd_patent_id, hrr']
          exact beq_self_eq_true r.patent_id

/-- Claim C7 — `search_prior_art` groups the retrieved claims by owning
patent; every returned group carries its patent's claims sorted descending
by similarity and truncated to 5, has maximum similarity at least the 0.4
noise floor, the groups are sorted descending by maximum similarity and
truncated to `limit`, and when every retrieved similarity is below 0.4
(e.g. a best similarity of 0.3) the result is empty regardless of `limit`. -/
theorem claim_C7_prior_art_grouping (rows : List PARow) (limit : Nat) :
    (∀ g ∈ searchPriorArt rows limit,
        (0.4 : ℚ) ≤ g.highest_similarity
        ∧ g.blocking_claims
          = (List.insertionSort (fun a b : PARow × String => b.1.similarity ≤ a.1.similarity)
              ((rows.filter fun r => g.patent_id == r.patent_id).map
                fun r => (r, paRisk r.similarity))).take 5)
    ∧ (searchPriorArt rows limit).Sorted
        (fun g1 g2 => g2.highest_similarity ≤ g1.highest_similarity)
    ∧ (searchPriorArt rows limit).length ≤ limit
    ∧ ((∀ r ∈ rows, r.similarity < 0.4) → searchPriorArt rows limit = []) := by
  obtain ⟨hchar, _⟩ := paMap_char rows
  have hout : searchPriorArt rows limit
      = (List.insertionSort (fun g1 g2 : PAGroup => g2.highest_similarity ≤ g1.highest_similarity)
          ((paMap rows).filterMap fun e =>
            if (0.4 : ℚ) ≤ e.highest_similarity then
              some (⟨e.patent_id,
                (List.insertionSort (fun a b : PARow × String => b.1.similarity ≤ a.1.similarity)
                  e.blocking_claims).take 5,
                e.highest_similarity,
                if 0.75 ≤ e.highest_similarity then "high"
                else if 0.55 ≤ e.highest_similarity then "medium" else "low"⟩ : PAGroup)
            else none)).take limit := rfl
  refine ⟨?_, ?_, ?_, ?_⟩
  · intro g hg
    rw [hout] at hg
    have hg1 := List.mem_of_mem_take hg
    have hg2 := (List.perm_insertionSort
      (fun g1 g2 : PAGroup => g2.highest_similarity ≤ g1.highest_similarity) _).mem_iff.mp hg1
    rcases List.mem_filterMap.mp hg2 with ⟨e, hemem, hfe⟩
    by_cases hth : (0.4 : ℚ) ≤ e.highest_similarity
    · rw [if_pos hth] at hfe
      obtain ⟨hc, _⟩ := hchar e hemem
      have hge : g = _ := (Option.some.inj hfe).symm
      subst hge
      refine ⟨hth, ?_⟩
      dsimp only
      rw [hc]
    · rw [if_neg hth] at hfe
      simp at hfe
  · rw [hout]
    refine List.Pairwise.sublist (List.take_sublist _ _) ?_
    exact @sorted_insertionSort_of PAGroup
      (fun g1 g2 => g2.highest_similarity ≤ g1.highest_similarity) _
      (fun a b c h1 h2 => le_trans h2 h1)
      (fun a b => le_total b.highest_similarity a.highest_similarity) _
  · rw [hout]
    exact List.length_take_le _ _
  · intro hall
    rw [hout]
    have hnone : ((paMap rows).filterMap fun e =>
        if (0.4 : ℚ) ≤ e.highest_similarity then
          some (⟨e.patent_id,
            (List.insertionSort (fun a b : PARow × String => b.1.similarity ≤ a.1.similarity)
              e.blocking_claims).take 5,
            e.highest_similarity,
            if 0.75 ≤ e.highest_similarity then "high"
            else if 0.55 ≤ e.highest_similarity then "medium" else "low"⟩ : PAGroup)
        else none) = [] := by
      rw [List.filterMap_eq_nil_iff]
      intro e hemem
      obtain ⟨_, hh⟩ := hchar e hemem
      have hlt : e.highest_similarity < 0.4 := by
        rw [hh]
        refine listMaxQ_lt _ _ (by norm_num) ?_
        intro s hs
        rcases List.mem_map.mp hs with ⟨r, hr, hrs⟩
        rw [← hrs]
        exact hall r (List.mem_of_mem_filter hr)
      rw [if_neg (not_le.mpr hlt)]
    rw [hnone]
    simp

end PriorArt

/-! ## Claim-parser theorems (C6, C9) -/

namespace Parser

/-- The head surviving a `dropWhile` fails the predicate. -/
theorem dropWhile_cons_head (p : Char → Bool) (l : List Char) (c : Char)
    (t : List Char) (h : l.dropWhile p = c :: t) : p c = false := by
  have hh := List.head?_dropWhile_not p l
  rw [h] at hh
  exact hh

/-- Splitting a list at its trailing whitespace run. -/
theorem dropTail_append_tail (Y : List Char) :
    dropTail Y ++ (Y.reverse.takeWhile isWs).reverse = Y := by
  unfold dropTail
  rw [← List.reverse_append, List.takeWhile_append_dropWhile, List.reverse_reverse]

/-- The trailing run removed by `dropTail` is all whitespace. -/
theorem tail_all_ws (Y : List Char) :
    ∀ c ∈ (Y.reverse.takeWhile isWs).reverse, isWs c = true := by
  intro c hc
  exact List.mem_takeWhile_imp (List.mem_reverse.mp hc)

/-- `takeWhile`/`dropWhile` on a list that starts with a satisfying run
followed by a failing element. -/
theorem takeWhile_middle {p : Char → Bool} (ds : List Char) (c : Char)
    (X : List Char) (hds : ∀ x ∈ ds, p x = true) (hc : p c = false) :
    (ds ++ c :: X).takeWhile p = ds ∧ (ds ++ c :: X).dropWhile p = c :: X := by
  induction ds with
  | nil => simp [List.takeWhile, List.dropWhile, hc]
  | cons d t ih =>
    have hd : p d = true := hds d (by simp)
    have ih2 := ih fun x hx => hds x (by simp [hx])
    simp [List.takeWhile, List.dropWhile, hd, ih2.1, ih2.2]

/-- Dropping leading whitespace twice is the same as once. -/
theorem dropWhile_dropTail (cs : List Char) :
    (dropTail (cs.dropWhile isWs)).dropWhile isWs = dropTail (cs.dropWhile isWs) := by
  cases h : dropTail (cs.dropWhile isWs) with
  | nil => rfl
  | cons c t =>
    have hY := dropTail_append_tail (cs.dropWhile isWs)
    rw [h] at hY
    have hc : isWs c = false := dropWhile_cons_head isWs cs c _ hY.symm
    simp [List.dropWhile, hc]

/-- The stripped line's data is the whitespace-trimmed original data. -/
theorem stripS_data (l : String) :
    (stripS l).data = dropTail (l.data.dropWhile isWs) := rfl

/-- `marker1` of a stripped line only sees the both-ends-trimmed data. -/
theorem marker1_stripS (l : String) :
    marker1 (stripS l) = mcore (dropTail (l.data.dropWhile isWs)) := by
  show mcore ((stripS l).data.dropWhile isWs) = _
  rw [stripS_data, dropWhile_dropTail]

/-- Inversion of a successful marker-core match: the input is a non-empty
digit run, the punctuation character, then the captured rest. -/
theorem mcore_inv (A : List Char) (n : Nat) (r : String)
    (h : mcore A = some (n, r)) :
    ∃ c, (c = '.' ∨ c = ')')
      ∧ A = A.takeWhile Char.isDigit ++ c :: r.data
      ∧ (A.takeWhile Char.isDigit).isEmpty = false
      ∧ n = digitsVal (A.takeWhile Char.isDigit) := by
  by_cases hds : (A.takeWhile Char.isDigit).isEmpty
  · simp [mcore, hds] at h
  · have hsplit := List.takeWhile_append_dropWhile (p := Char.isDigit) (l := A)
    simp only [mcore, hds, Bool.false_eq_true, if_false] at h
    split at h
    · rename_i r' heq
      obtain ⟨hn, hr⟩ := Prod.mk.injEq .. ▸ Option.some.injEq .. ▸ h
      have hrd : r.data = r' := by rw [← hr]
      refine ⟨'.', Or.inl rfl, ?_, by simpa using hds, hn.symm⟩
      rw [hrd, ← heq, hsplit]
    · rename_i r' heq
      obtain ⟨hn, hr⟩ := Prod.mk.injEq .. ▸ Option.some.injEq .. ▸ h
      have hrd : r.data = r' := by rw [← hr]
      refine ⟨')', Or.inr rfl, ?_, by simpa using hds, hn.symm⟩
      rw [hrd, ← heq, hsplit]
    · exact absurd h (by simp)

/-- `dropWhile` skips over a fully satisfying first block. -/
theorem dropWhile_append_all {p : Char → Bool} (A B : List Char)
    (hA : ∀ x ∈ A, p x = true) : (A ++ B).dropWhile p = B.dropWhile p := by
  induction A with
  | nil => rfl
  | cons a t ih =>
    have ha : p a = true := hA a (by simp)
    simp [List.dropWhile, ha, ih fun x hx => hA x (by simp [hx])]

/-- A successful marker-core match survives appending a suffix: the digits
and punctuation are untouched and the suffix joins the captured rest. -/
theorem mcore_append (A W : List Char) (n : Nat) (r : String)
    (h : mcore A = some (n, r)) :
    mcore (A ++ W) = some (n, String.mk (r.data ++ W)) := by
  obtain ⟨c, hc, hA, hne, hn⟩ := mcore_inv A n r h
  have hds : ∀ x ∈ A.takeWhile Char.isDigit, Char.isDigit x = true :=
    fun x hx => List.mem_takeWhile_imp hx
  have hcd : Char.isDigit c = false := by
    rcases hc with rfl | rfl <;> rfl
  have hmid := takeWhile_middle (A.takeWhile Char.isDigit) c (r.data ++ W) hds hcd
  have hAW : A ++ W = A.takeWhile Char.isDigit ++ c :: (r.data ++ W) := by
    conv_lhs => rw [hA]
    simp
  rw [hAW]
  simp only [mcore, hmid.1, hmid.2, hne, Bool.false_eq_true, if_false]
  rcases hc with rfl | rfl <;> simp [hn]

/-- A line with no `"N."` marker still has none once stripped: removing
trailing whitespace cannot create the digits-then-punctuation prefix. -/
theorem marker1_strip_none (l : String) (h : marker1 l = none) :
    marker1 (stripS l) = none := by
  rw [marker1_stripS]
  cases hm : mcore (dropTail (l.data.dropWhile isWs)) with
  | none => rfl
  | some nr =>
    exfalso
    obtain ⟨n, r⟩ := nr
    have happ := mcore_append _ ((l.data.dropWhile isWs).reverse.takeWhile isWs).reverse
      n r hm
    rw [dropTail_append_tail] at happ
    have : marker1 l = some (n, String.mk (r.data ++ _)) := happ
    rw [h] at this
    exact Option.noConfusion this

/-- A marker line whose captured rest is blank strips to exactly
`"<digits><punct>"`: the stripped line is non-empty, still a marker, and its
captured rest is the empty string. -/
theorem marker1_strip_blank (l : String) (n : Nat) (rest : String)
    (h : marker1 l = some (n, rest)) (hb : blankS rest = true) :
    marker1 (stripS l) = some (n, "") ∧ (stripS l).data.isEmpty = false := by
  have hm : mcore (l.data.dropWhile isWs) = some (n, rest) := h
  obtain ⟨c, hc, hA, hne, hn⟩ := mcore_inv _ n rest hm
  have hrw : ∀ x ∈ rest.data, isWs x = true := by
    intro x hx
    exact List.all_eq_true.mp hb x hx
  have hcw : isWs c = false := by
    rcases hc with rfl | rfl <;> rfl
  set ds := (l.data.dropWhile isWs).takeWhile Char.isDigit with hds
  have hdrop : dropTail (l.data.dropWhile isWs) = ds ++ [c] := by
    unfold dropTail
    rw [hA]
    rw [List.reverse_append, List.reverse_cons, List.append_assoc]
    rw [dropWhile_append_all rest.data.reverse _
      (fun x hx => hrw x (List.mem_reverse.mp hx))]
    simp [List.dropWhile, hcw]
  have hds_dig : ∀ x ∈ ds, Char.isDigit x = true :=
    fun x hx => List.mem_takeWhile_imp hx
  have hcd : Char.isDigit c = false := by
    rcases hc with rfl | rfl <;> rfl
  have hmid := takeWhile_middle ds c [] hds_dig hcd
  constructor
  · rw [marker1_stripS, hdrop]
    have : ds ++ [c] = ds ++ c :: [] := rfl
    rw [this]
    simp only [mcore, hmid.1, hmid.2, hne, Bool.false_eq_true, if_false]
    rcases hc with rfl | rfl <;> simp [hn]
  · rw [stripS_data, hdrop]
    simp

/-- Unfolding the segment fold over a marker line. -/
theorem segPair_cons_some (mk : String → Option (Nat × String)) (l : String)
    (tl : List String) (nr : Nat × String) (hm : mk l = some nr) :
    segPair mk (l :: tl)
      = (⟨nr.1, nr.2, l, (segPair mk tl).2⟩ :: (segPair mk tl).1, []) := by
  simp only [segPair, List.foldr_cons, hm]

/-- Unfolding the segment fold over a non-marker line. -/
theorem segPair_cons_none (mk : String → Option (Nat × String)) (l : String)
    (tl : List String) (hm : mk l = none) :
    segPair mk (l :: tl) = ((segPair mk tl).1, l :: (segPair mk tl).2) := by
  simp only [segPair, List.foldr_cons, hm]

/-- Lines without any marker produce no segments; they all pend. -/
theorem segPair_of_no_marker (mk : String → Option (Nat × String)) :
    ∀ lines : List String, (∀ l ∈ lines, mk l = none) →
      segPair mk lines = ([], lines)
  | [], _ => rfl
  | l :: tl, h => by
    rw [segPair_cons_none mk l tl (h l (by simp)),
      segPair_of_no_marker mk tl fun x hx => h x (by simp [hx])]

/-- No segments means no line carried a marker. -/
theorem no_marker_of_segPair_nil (mk : String → Option (Nat × String)) :
    ∀ lines : List String, (segPair mk lines).1 = [] →
      ∀ l ∈ lines, mk l = none
  | [], _, l, hl => absurd hl (List.not_mem_nil l)
  | x :: tl, h, l, hl => by
    cases hm : mk x with
    | some nr =>
      rw [segPair_cons_some mk x tl nr hm] at h
      exact absurd h (by simp)
    | none =>
      rw [segPair_cons_none mk x tl hm] at h
      rcases List.mem_cons.mp hl with rfl | hl2
      · exact hm
      · exact no_marker_of_segPair_nil mk tl h l hl2

/-- A single empty-bodied segment means: some non-marker lines, then one
final marker line. -/
theorem segPair_singleton_struct (mk : String → Option (Nat × String))
    (n : Nat) (rest : String) (lm : String) :
    ∀ lines : List String,
      (segPair mk lines).1 = [⟨n, rest, lm, []⟩] →
      ∃ pre, lines = pre ++ [lm] ∧ (∀ l ∈ pre, mk l = none)
        ∧ mk lm = some (n, rest)
  | [], h => absurd h (by simp [segPair])
  | x :: tl, h => by
    cases hm : mk x with
    | some nr =>
      rw [segPair_cons_some mk x tl nr hm] at h
      obtain ⟨⟨h1, h2, h3, h4⟩, h5⟩ := by
        simpa [Seg.mk.injEq] using h
      have htl0 : ∀ l ∈ tl, mk l = none := no_marker_of_segPair_nil mk tl h5
      have htl : segPair mk tl = ([], tl) := segPair_of_no_marker mk tl htl0
      have htlnil : tl = [] := by
        rw [htl] at h4
        simpa using h4.symm
      subst htlnil
      subst h3
      refine ⟨[], rfl, by simp, ?_⟩
      rw [hm]
      have hnr : nr = (n, rest) := Prod.ext h1 h2
      rw [hnr]
    | none =>
      rw [segPair_cons_none mk x tl hm] at h
      obtain ⟨pre, hp1, hp2, hp3⟩ := segPair_singleton_struct mk n rest lm tl h
      refine ⟨x :: pre, by rw [hp1]; rfl, ?_, hp3⟩
      intro l hl
      rcases List.mem_cons.mp hl with rfl | hl2
      · exact hm
      · exact hp2 l hl2

/-- Unfolding equation of `cands` on a cons cell. -/
theorem cands_cons (n : Nat) (rest line : String) (body : List String)
    (tl : List Seg) :
    cands (⟨n, rest, line, body⟩ :: tl)
      = if !(blankS rest && blankAll body) then
          (n, joinLines (rest :: body)) :: cands tl
        else
          match tl with
          | [] => if body.isEmpty then [] else [(n, joinLines (rest :: body))]
          | ⟨_, _, line2, body2⟩ :: tl2 =>
            (n, joinLines (line2 :: body2)) :: cands tl2 := by
  rw [cands.eq_def]

/-- An empty candidate list comes from no segments at all or from a single
trailing blank marker segment. -/
theorem cands_nil_cases (segs : List Seg) (h : cands segs = []) :
    segs = [] ∨ ∃ n rest lm,
      segs = [⟨n, rest, lm, ([] : List String)⟩] ∧ blankS rest = true := by
  cases segs with
  | nil => exact Or.inl rfl
  | cons s tl =>
    obtain ⟨n, rest, line, body⟩ := s
    rw [cands_cons] at h
    by_cases hcond : (blankS rest && blankAll body) = true
    · rw [hcond] at h
      simp only [Bool.not_true, Bool.false_eq_true, if_false] at h
      cases tl with
      | nil =>
        by_cases hb : body.isEmpty
        · have hbody : body = [] := List.isEmpty_iff.mp hb
          subst hbody
          have hb2 : blankS rest = true := by
            simp only [Bool.and_eq_true] at hcond
            exact hcond.1
          exact Or.inr ⟨n, rest, line, rfl, hb2⟩
        · simp [hb] at h
      | cons s2 tl2 =>
        obtain ⟨n2, rest2, line2, body2⟩ := s2
        simp at h
    · have hcond2 : (blankS rest && blankAll body) = false := by
        simpa using hcond
      rw [hcond2] at h
      simp at h

/-- An empty primary-pattern scan means: no marker line at all, or only a
single final marker line whose rest is blank. -/
theorem scan_nil_cases (lines : List String)
    (h : scanPat marker1 lines = []) :
    (∀ l ∈ lines, marker1 l = none)
    ∨ ∃ pre lm n rest, lines = pre ++ [lm] ∧ (∀ l ∈ pre, marker1 l = none)
        ∧ marker1 lm = some (n, rest) ∧ blankS rest = true := by
  rcases cands_nil_cases (segments marker1 lines) h with hseg | ⟨n, rest, lm, hseg, hb⟩
  · exact Or.inl (no_marker_of_segPair_nil marker1 lines hseg)
  · obtain ⟨pre, hp1, hp2, hp3⟩ :=
      segPair_singleton_struct marker1 n rest lm lines hseg
    exact Or.inr ⟨pre, lm, n, rest, hp1, hp2, hp3, hb⟩

/-- The fallback scan keeps its initial state over marker-free lines. -/
theorem fbFold_no_marker :
    ∀ lines : List String, (∀ l ∈ lines, marker1 l = none) →
      lines.foldl fbStep ⟨none, [], []⟩ = ⟨none, [], []⟩
  | [], _ => rfl
  | l :: tl, h => by
    have hstep : fbStep ⟨none, [], []⟩ l = ⟨none, [], []⟩ := by
      by_cases hE : (stripS l).data.isEmpty
      · simp [fbStep, hE]
      · have hm : marker1 (stripS l) = none :=
          marker1_strip_none l (h l (by simp))
        simp [fbStep, hE, hm]
    rw [List.foldl_cons, hstep]
    exact fbFold_no_marker tl fun x hx => h x (by simp [hx])

/-- When the primary pattern finds no candidate, the fallback line scan
also produces nothing: either no line is a marker (so no claim ever starts),
or the only marker is a trailing blank one (so its piece list stays empty
and the final flush emits nothing). -/
theorem fallback_of_scan_nil (lines : List String)
    (h : scanPat marker1 lines = []) : fallbackParse lines = [] := by
  rcases scan_nil_cases lines h with hall | ⟨pre, lm, n, rest, hsplit, hpre, hlm, hb⟩
  · unfold fallbackParse
    rw [fbFold_no_marker lines hall]
    rfl
  · obtain ⟨hsome, hne⟩ := marker1_strip_blank lm n rest hlm hb
    unfold fallbackParse
    rw [hsplit, List.foldl_append, fbFold_no_marker pre hpre]
    have hstep : fbStep ⟨none, [], []⟩ lm = ⟨some n, [], []⟩ := by
      simp [fbStep, hne, hsome, fbFlush]
    rw [List.foldl_cons, hstep]
    rfl

/-- **C9 counterexample.**  An input that matches neither claim pattern —
here a preamble line followed by a bare trailing `"1."` marker — parses to
the empty list rather than to short fallback claims. -/
theorem claim_C9_counterexample :
    scanPat marker1 (splitLines (preprocess "preamble text\n1.")) = []
    ∧ scanPat marker2 (splitLines (preprocess "preamble text\n1.")) = []
    ∧ parseClaims "preamble text\n1." = [] := by
  decide

/-- **C9 (corrected).**  The 10-character noise filter is indeed applied
only by the regex strategies, but an input matching neither regex pattern
always parses to the empty list: the line-scan fallback cannot emit a claim
without a numbered line, and the only numbered-line shapes compatible with
an empty primary scan are blank trailing markers, which flush nothing.  The
fallback instead produces sub-11-character claims when the primary pattern
does match but every candidate is discarded by the length filter. -/
theorem claim_C9_fallback_no_length_filter :
    (∀ txt : String,
      scanPat marker1 (splitLines (preprocess txt)) = [] →
      scanPat marker2 (splitLines (preprocess txt)) = [] →
      parseClaims txt = [])
    ∧ scanPat marker1 (splitLines (preprocess "1. abc def\n2. ghi")) ≠ []
    ∧ parseClaims "1. abc def\n2. ghi"
        = [⟨1, "abc def", true, none, none⟩, ⟨2, "ghi", true, none, none⟩]
    ∧ ∀ c ∈ parseClaims "1. abc def\n2. ghi", c.claim_text.length < 11 := by
  refine ⟨?_, by decide, by decide, by decide⟩
  intro txt hm1 hm2
  by_cases hE : txt.isEmpty
  · simp [parseClaims, hE]
  · simp only [parseClaims]
    rw [if_neg hE]
    simp [hm1, hm2, fallback_of_scan_nil _ hm1, List.insertionSort]

/-- `segPair` over all-marker lines: one empty-bodied segment per line. -/
theorem segPair_all_markers (mk : String → Option (Nat × String)) :
    ∀ lines : List String, (∀ l ∈ lines, ∃ nr, mk l = some nr) →
      segPair mk lines
        = (lines.map fun l =>
            ⟨((mk l).getD (0, "")).1, ((mk l).getD (0, "")).2, l, []⟩, [])
  | [], _ => rfl
  | l :: tl, h => by
    obtain ⟨nr, hnr⟩ := h l (by simp)
    rw [segPair_cons_some mk l tl nr hnr,
      segPair_all_markers mk tl fun x hx => h x (by simp [hx])]
    simp [hnr]

/-- When every segment has a non-blank rest, each segment yields exactly
one candidate. -/
theorem cands_of_nonblank :
    ∀ segs : List Seg, (∀ s ∈ segs, blankS s.rest = false) →
      cands segs = segs.map fun s => (s.num, joinLines (s.rest :: s.body))
  | [], _ => rfl
  | ⟨n, rest, line, body⟩ :: tl, h => by
    have hr : blankS rest = false := h ⟨n, rest, line, body⟩ (by simp)
    rw [cands_cons, if_pos (by simp [hr]),
      cands_of_nonblank tl fun s hs => h s (by simp [hs])]
    rfl

/-- Joining a single line is the identity. -/
theorem joinLines_single (s : String) : joinLines [s] = s := rfl

/-- The primary scan over lines that are all markers with non-blank rests
returns exactly one `(number, rest)` candidate per line. -/
theorem scan_all_markers (lines : List String)
    (h : ∀ l ∈ lines, ∃ nr : Nat × String,
      marker1 l = some nr ∧ blankS nr.2 = false) :
    scanPat marker1 lines = lines.map fun l => (marker1 l).getD (0, "") := by
  have hseg := segPair_all_markers marker1 lines
    fun l hl => (h l hl).imp fun nr hnr => hnr.1
  have hb : ∀ s ∈ (lines.map fun l =>
      (⟨((marker1 l).getD (0, "")).1, ((marker1 l).getD (0, "")).2, l, []⟩ : Seg)),
      blankS s.rest = false := by
    intro s hs
    obtain ⟨l, hl, rfl⟩ := List.mem_map.mp hs
    obtain ⟨nr, hnr, hbl⟩ := h l hl
    simpa [hnr] using hbl
  unfold scanPat segments
  rw [hseg]
  rw [cands_of_nonblank _ hb, List.map_map]
  apply List.map_congr_left
  intro l hl
  obtain ⟨nr, hnr, hbl⟩ := h l hl
  simp [Function.comp, hnr, joinLines_single]

/-- A `filterMap` that keeps every element is a `map`. -/
theorem filterMap_all_some {α β : Type*} (f : α → Option β) (g : α → β) :
    ∀ l : List α, (∀ a ∈ l, f a = some (g a)) → l.filterMap f = l.map g
  | [], _ => rfl
  | a :: t, h => by
    simp [List.filterMap_cons, h a (by simp),
      filterMap_all_some f g t fun x hx => h x (by simp [hx])]

/-- Text longer than the noise floor is in particular non-empty. -/
theorem isEmpty_false_of_length (s : String) (h : 10 < s.length) :
    s.isEmpty = false := by
  cases hB : s.isEmpty with
  | false => rfl
  | true =>
    have hs : s = "" := (String.isEmpty_iff s).mp hB
    subst hs
    exact absurd h (by decide)

/-- Splitting on newlines always produces at least one part. -/
theorem splitNL_ne_nil : ∀ cs : List Char, splitNL cs ≠ []
  | [] => by simp [splitNL]
  | c :: cs => by
    by_cases hc : c = '\n'
    · simp [splitNL, hc]
    · simp only [splitNL, if_neg hc]
      cases hs : splitNL cs with
      | nil => simp
      | cons l ls => simp

theorem splitLines_ne_nil (s : String) : splitLines s ≠ [] := by
  unfold splitLines
  intro hc
  rw [List.map_eq_nil_iff] at hc
  exact splitNL_ne_nil s.data hc

/-- The parse output is always sorted ascending by claim number (the final
stable sort applies on every path). -/
theorem parse_sorted (txt : String) :
    List.Sorted (fun a b : Nat => a ≤ b)
      ((parseClaims txt).map fun c => c.claim_number) := by
  have key : ∀ cl : List ParsedClaim,
      List.Sorted (fun a b : Nat => a ≤ b)
        ((List.insertionSort (fun a b => a.claim_number ≤ b.claim_number) cl).map
          fun c => c.claim_number) := by
    intro cl
    have hs := @sorted_insertionSort_of ParsedClaim
      (fun a b => a.claim_number ≤ b.claim_number) _
      (fun _ _ _ h1 h2 => le_trans h1 h2)
      (fun a b => Nat.le_total a.claim_number b.claim_number) cl
    exact List.pairwise_map.mpr hs
  unfold parseClaims
  by_cases hE : txt.isEmpty
  · rw [if_pos hE]
    simp
  · rw [if_neg hE]
    exact key _

/-- On a well-formed input the parse is exactly: one claim per line, built
from that line's marker capture, then the ascending stable sort. -/
theorem parse_wellformed_eq (txt : String) (h : WellFormed txt) :
    parseClaims txt
      = List.insertionSort (fun a b => a.claim_number ≤ b.claim_number)
          (((splitLines txt).map fun l => (marker1 l).getD (0, "")).map
            fun p => buildClaim p.1 (cleanClaimText p.2)) := by
  obtain ⟨h1, h2, h3⟩ := h
  have hmk : ∀ l ∈ splitLines txt, ∃ nr : Nat × String,
      marker1 l = some nr ∧ blankS nr.2 = false :=
    fun l hl => (h3 l hl).imp fun nr hnr => ⟨hnr.1, hnr.2.1⟩
  have hscan := scan_all_markers (splitLines txt) hmk
  have hM : ((splitLines txt).map fun l => (marker1 l).getD (0, "")) ≠ [] := by
    intro hc
    rw [List.map_eq_nil_iff] at hc
    exact splitLines_ne_nil txt hc
  have hkeep : ∀ p ∈ ((splitLines txt).map fun l => (marker1 l).getD (0, "")),
      mkClaim p = some (buildClaim p.1 (cleanClaimText p.2)) := by
    intro p hp
    obtain ⟨l, hl, rfl⟩ := List.mem_map.mp hp
    obtain ⟨nr, hnr, hbl, hlen⟩ := h3 l hl
    have hne := isEmpty_false_of_length _ hlen
    simp [hnr, mkClaim, hne, hlen]
  simp only [parseClaims, h2]
  rw [if_neg h1, hscan, filterMap_all_some _ _ _ hkeep]
  have hMe : (((splitLines txt).map fun l => (marker1 l).getD (0, "")).isEmpty)
      = false :=
    Bool.eq_false_iff.mpr fun hx => hM (List.isEmpty_iff.mp hx)
  have hGe : ((((splitLines txt).map fun l => (marker1 l).getD (0, "")).map
      fun p => buildClaim p.1 (cleanClaimText p.2)).isEmpty) = false := by
    refine Bool.eq_false_iff.mpr fun hx => hM ?_
    have hx2 := List.isEmpty_iff.mp hx
    rwa [List.map_eq_nil_iff] at hx2
  simp [hMe, hGe, splitLines_ne_nil txt]

/-- **C6.**  On every well-formed `"N. ..."` input, the parse output is
sorted ascending by claim number, and the set of output claim numbers is
exactly the set of numbers of the input's numbered markers. -/
theorem claim_C6_wellformed_parse (txt : String) (h : WellFormed txt) :
    List.Sorted (fun a b : Nat => a ≤ b)
      ((parseClaims txt).map fun c => c.claim_number)
    ∧ ((parseClaims txt).map fun c => c.claim_number).toFinset
      = (markerNumbers txt).toFinset := by
  refine ⟨parse_sorted txt, ?_⟩
  rw [parse_wellformed_eq txt h]
  obtain ⟨h1, h2, h3⟩ := h
  have hperm :
      ((List.insertionSort (fun a b => a.claim_number ≤ b.claim_number)
          (((splitLines txt).map fun l => (marker1 l).getD (0, "")).map
            fun p => buildClaim p.1 (cleanClaimText p.2))).map
        fun c => c.claim_number).Perm
      ((((splitLines txt).map fun l => (marker1 l).getD (0, "")).map
            fun p => buildClaim p.1 (cleanClaimText p.2)).map
        fun c => c.claim_number) :=
    (List.perm_insertionSort _ _).map _
  rw [List.toFinset_eq_of_perm _ _ hperm]
  have hcn : ((((splitLines txt).map fun l => (marker1 l).getD (0, "")).map
      fun p => buildClaim p.1 (cleanClaimText p.2)).map fun c => c.claim_number)
      = ((splitLines txt).map fun l => (marker1 l).getD (0, "")).map
          fun p => p.1 := by
    rw [List.map_map]
    rfl
  rw [hcn]
  have hmn : markerNumbers txt
      = ((splitLines txt).map fun l => (marker1 l).getD (0, "")).map
          fun p => p.1 := by
    unfold markerNumbers
    rw [h2, List.map_map]
    apply filterMap_all_some
    intro l hl
    obtain ⟨nr, hnr, _, _⟩ := h3 l hl
    simp [Function.comp, hnr]
  rw [hmn]

/-- Witness for C6: a concrete well-formed two-claim input. -/
theorem claim_C6_witness :
    WellFormed "1. A method comprising a widget assembly.\n2. The method of claim 1, wherein the widget is blue."
    ∧ (List.Sorted (fun a b : Nat => a ≤ b)
        ((parseClaims "1. A method comprising a widget assembly.\n2. The method of claim 1, wherein the widget is blue.").map
          fun c => c.claim_number)
      ∧ ((parseClaims "1. A method comprising a widget assembly.\n2. The method of claim 1, wherein the widget is blue.").map
          fun c => c.claim_number).toFinset
        = (markerNumbers "1. A method comprising a widget assembly.\n2. The method of claim 1, wherein the widget is blue.").toFinset) :=
  ⟨by decide, claim_C6_wellformed_parse _ (by decide)⟩

end Parser

end PatentAI
